import Mathlib

/-!
Shallow embedding of the Gaussian-process regression core described by the
repository (notebook sem4-GP/1_GP_basics.ipynb together with its
reconstruction specification): kernels with sum/product/masked
composition, the covariance builder with jitter escalation, the
regression engine (posterior mean and variance, log marginal likelihood,
leave-one-out formulas), the hyperparameter optimizer with fixed
parameters, and the dataset validation step.  The numerical code itself
lives in an external library, so the engine is modelled from the
specification text; every definition carries a note saying where it
comes from.
-/

open Matrix

namespace GP

noncomputable section

/-- Modelled from the spec: the error taxonomy of the core (spec section 7). -/
inductive GPError where
  | dimensionMismatch
  | invalidParameter
  | numericalInstability
  | optimizationNonConvergence
deriving DecidableEq

/-- Modelled from the spec: kernel expressions of the core.  The
stationary base kernels RBF, Exponential, Matern32, Matern52, RatQuad and
StdPeriodic (all functions of the distance between the two inputs and a
lengthscale), the Linear kernel with per-dimension (ARD) variances, the
Polynomial kernel, the white-noise kernel, and the sum, product and
masked (active-dimension) combinators (spec sections 3 and 4.1).  The
first parameter of each base kernel other than Linear is its variance. -/
inductive Kern : ℕ → Type where
  | rbf (variance lengthscale : ℝ) (d : ℕ) : Kern d
  | exponential (variance lengthscale : ℝ) (d : ℕ) : Kern d
  | matern32 (variance lengthscale : ℝ) (d : ℕ) : Kern d
  | matern52 (variance lengthscale : ℝ) (d : ℕ) : Kern d
  | ratquad (variance lengthscale power : ℝ) (d : ℕ) : Kern d
  | stdperiodic (variance lengthscale period : ℝ) (d : ℕ) : Kern d
  | linear {d : ℕ} (variances : Fin d → ℝ) : Kern d
  | poly (variance scale bias : ℝ) (order : ℕ) (d : ℕ) : Kern d
  | white (variance : ℝ) (d : ℕ) : Kern d
  | sum {d : ℕ} (k1 k2 : Kern d) : Kern d
  | prod {d : ℕ} (k1 k2 : Kern d) : Kern d
  | masked {m d : ℕ} (k : Kern m) (sel : Fin m → Fin d) : Kern d

open Classical in
/-- Modelled from the spec: pointwise kernel evaluation k(x, x').  The RBF
formula is the one displayed in the notebook markdown; the other
stationary kernels use the standard GPy formulas in the squared distance
q = sum of (x_t - y_t)^2 and its root r: Exponential exp(-r/l), Matern32
(1 + sqrt 3 r/l) exp(-sqrt 3 r/l), Matern52 (1 + sqrt 5 r/l + 5q/(3l^2))
exp(-sqrt 5 r/l), RatQuad (1 + q/(2 a l^2))^(-a) and StdPeriodic an
exponential of the squared sines of the per-dimension phase differences;
Linear is an inner product with per-dimension (ARD) variances, Polynomial
is v (s <x, y> + c)^n, and the white-noise kernel is a Kronecker delta at
identical inputs (spec section 3); the combinators delegate elementwise
(spec section 4.1). -/
def Kern.evaluate : {d : ℕ} → Kern d → (Fin d → ℝ) → (Fin d → ℝ) → ℝ
  | _, .rbf v l _, x, y => v * Real.exp (-(∑ t, (x t - y t) ^ 2) / (2 * l ^ 2))
  | _, .exponential v l _, x, y =>
      v * Real.exp (-(Real.sqrt (∑ t, (x t - y t) ^ 2) / l))
  | _, .matern32 v l _, x, y =>
      v * (1 + Real.sqrt 3 * Real.sqrt (∑ t, (x t - y t) ^ 2) / l)
        * Real.exp (-(Real.sqrt 3 * Real.sqrt (∑ t, (x t - y t) ^ 2) / l))
  | _, .matern52 v l _, x, y =>
      v * (1 + Real.sqrt 5 * Real.sqrt (∑ t, (x t - y t) ^ 2) / l
          + 5 * (∑ t, (x t - y t) ^ 2) / (3 * l ^ 2))
        * Real.exp (-(Real.sqrt 5 * Real.sqrt (∑ t, (x t - y t) ^ 2) / l))
  | _, .ratquad v l a _, x, y =>
      v * (1 + (∑ t, (x t - y t) ^ 2) / (2 * a * l ^ 2)) ^ (-a)
  | _, .stdperiodic v l T _, x, y =>
      v * Real.exp (-(∑ t, Real.sin (Real.pi * (x t - y t) / T) ^ 2) / (2 * l ^ 2))
  | _, .linear w, x, y => ∑ t, w t * (x t * y t)
  | _, .poly v s c n _, x, y => v * (s * (∑ t, x t * y t) + c) ^ n
  | _, .white v _, x, y => if x = y then v else 0
  | _, .sum k1 k2, x, y => k1.evaluate x y + k2.evaluate x y
  | _, .prod k1 k2, x, y => k1.evaluate x y * k2.evaluate x y
  | _, .masked k sel, x, y => k.evaluate (x ∘ sel) (y ∘ sel)

/-- Modelled from the spec: full-matrix kernel evaluation, entry (i, j)
being k(X_i, Y_j) (the GPy method kern.K used in the notebook). -/
def Kern.K {ι κ : Type} {d : ℕ} (k : Kern d) (X : ι → Fin d → ℝ)
    (Y : κ → Fin d → ℝ) : Matrix ι κ ℝ :=
  fun i j => k.evaluate (X i) (Y j)

/-- Modelled from the spec: a Gaussian-process regression model owns a
kernel, a training set (inputs X, targets y) and an observation-noise
variance (spec section 3, GaussianProcessModel). -/
structure GPR (ι : Type) (d : ℕ) where
  kern : Kern d
  X : ι → Fin d → ℝ
  y : ι → ℝ
  noise : ℝ

variable {ι : Type} [Fintype ι] [DecidableEq ι] {d : ℕ}

/-- Modelled from the spec: the regularized covariance matrix
K = kern.K(X, X) + noise * I built by the covariance builder
(spec section 4.2 and the notebook markdown for K_y). -/
def covMatrix (m : GPR ι d) : Matrix ι ι ℝ :=
  fun i j => m.kern.evaluate (m.X i) (m.X j) + if i = j then m.noise else 0

/-- Modelled from the spec: the solved vector alpha = K⁻¹ y computed by
fit (spec section 4.4). -/
def alphaVec (m : GPR ι d) : ι → ℝ :=
  (covMatrix m)⁻¹ *ᵥ m.y

/-- Modelled from the spec: the cross-covariance vector
k* = (k(x*, x_1), ..., k(x*, x_N)) (notebook markdown). -/
def kvec (m : GPR ι d) (xs : Fin d → ℝ) : ι → ℝ :=
  fun i => m.kern.evaluate xs (m.X i)

/-- Modelled from the spec: the unclamped predictive variance
k(x*, x*) - k*ᵗ K⁻¹ k* (spec section 4.4). -/
def predictVarRaw (m : GPR ι d) (xs : Fin d → ℝ) : ℝ :=
  m.kern.evaluate xs xs - kvec m xs ⬝ᵥ ((covMatrix m)⁻¹ *ᵥ kvec m xs)

/-- Modelled from the spec: predict returns the posterior mean
m(x*) = sum_i alpha_i k(x*, x_i) and the predictive variance clamped to
be non-negative (spec section 4.4). -/
def predict (m : GPR ι d) (xs : Fin d → ℝ) : ℝ × ℝ :=
  (∑ i, kvec m xs i * alphaVec m i, max 0 (predictVarRaw m xs))

/-- Modelled from the spec: the exact log marginal likelihood of a
regression model written with the log-determinant of K,
-(1/2) yᵗ alpha - (1/2) log det K - (N/2) log(2 pi) (spec section 4.4,
with sum(log diag L) = (1/2) log det K). -/
def lml (m : GPR ι d) : ℝ :=
  -(1 / 2) * (m.y ⬝ᵥ alphaVec m) - (1 / 2) * Real.log (covMatrix m).det -
    (Fintype.card ι : ℝ) / 2 * Real.log (2 * Real.pi)

/-- Modelled from the spec: merge a candidate parameter vector with the
current one, leaving parameters marked fixed untouched (spec section
4.5: fixed parameters are excluded from the optimization vector). -/
def applyFree {P : Type} (fixed : P → Bool) (cur cand : P → ℝ) : P → ℝ :=
  fun p => if fixed p then cur p else cand p

open Classical in
/-- Modelled from the spec: one accept/reject step of the likelihood
maximizer; a trial point is accepted only when it does not decrease the
objective (spec section 4.5, gradient-based local maximization). -/
def optStep {P : Type} (obj : (P → ℝ) → ℝ) (fixed : P → Bool)
    (cur cand : P → ℝ) : P → ℝ :=
  if obj cur ≤ obj (applyFree fixed cur cand) then applyFree fixed cur cand else cur

/-- Modelled from the spec: the optimizer loop over a finite list of
trial points produced by the (unspecified) local search; a trial whose
objective evaluation fails (None) aborts with NumericalInstability
(spec sections 4.5 and 7). -/
def optimizeE {P : Type} (obj : (P → ℝ) → ℝ) (fixed : P → Bool) :
    (P → ℝ) → List (Option (P → ℝ)) → Except GPError (P → ℝ)
  | cur, [] => .ok cur
  | _, none :: _ => .error .numericalInstability
  | cur, some c :: rest => optimizeE obj fixed (optStep obj fixed cur c) rest

/-- Modelled from the spec: the hyperparameter state of the model after a
call to optimize; the new parameter vector is committed only on success,
otherwise the state is exactly the previous one (spec section 7). -/
def optimizeModel {P : Type} (obj : (P → ℝ) → ℝ) (fixed : P → Bool)
    (θ₀ : P → ℝ) (cands : List (Option (P → ℝ))) : P → ℝ :=
  match optimizeE obj fixed θ₀ cands with
  | .ok θ => θ
  | .error _ => θ₀

/-- Modelled from the spec: Cholesky factorization succeeds precisely on
positive-definite matrices (spec section 4.3). -/
def choleskySucceeds (M : Matrix ι ι ℝ) : Prop := M.PosDef

open Classical in
/-- Modelled from the spec: the covariance builder retries a failing
Cholesky factorization with geometrically (doubling) increased jitter, up
to a bounded number of attempts, and exhausting them fails with
NumericalInstability (spec section 4.2). -/
def buildWithJitter (K : Matrix ι ι ℝ) : ℝ → ℕ → Except GPError (Matrix ι ι ℝ)
  | _, 0 => .error .numericalInstability
  | ε, n + 1 =>
    if choleskySucceeds (K + ε • (1 : Matrix ι ι ℝ)) then
      .ok (K + ε • (1 : Matrix ι ι ℝ))
    else buildWithJitter K (2 * ε) n

/-- Modelled from the spec: a raw dataset as handed to the core by the
external loader, two aligned lists (spec section 6). -/
structure RawData where
  xs : List (List ℝ)
  ys : List ℝ

/-- Modelled from the spec: the two tasks of the core (spec section 3). -/
inductive Task where
  | regression
  | classification
deriving DecidableEq

open Classical in
/-- Modelled from the spec: dataset validation; equal numbers of inputs
and targets, a consistent input dimension d, and for classification only
the labels +1 and -1 are accepted (spec sections 3 and 7). -/
def validate (d : ℕ) (t : Task) (r : RawData) : Except GPError Unit :=
  if r.xs.length ≠ r.ys.length then .error .dimensionMismatch
  else if ¬ ∀ x ∈ r.xs, x.length = d then .error .dimensionMismatch
  else if t = Task.classification ∧ ¬ ∀ z ∈ r.ys, z = 1 ∨ z = -1 then
    .error .invalidParameter
  else .ok ()

/-- Modelled from the spec: the log marginal likelihood as computed from
a Cholesky factor L of the regularized covariance,
-(1/2) yᵗ alpha - sum(log diag L) - (N/2) log(2 pi) (spec section 4.4). -/
def log_marginal_likelihood (m : GPR ι d) (L : Matrix ι ι ℝ) : ℝ :=
  -(1 / 2) * (m.y ⬝ᵥ alphaVec m) - (∑ i, Real.log (L i i)) -
    (Fintype.card ι : ℝ) / 2 * Real.log (2 * Real.pi)

/-- Modelled from the spec: the gradient of the log marginal likelihood
with respect to a hyperparameter whose covariance derivative is D, via
the trace identity (1/2) tr((alpha alphaᵗ - K⁻¹) D) (spec section 4.4). -/
def gradLML (m : GPR ι d) (D : Matrix ι ι ℝ) : ℝ :=
  (1 / 2) * ((vecMulVec (alphaVec m) (alphaVec m) - (covMatrix m)⁻¹) * D).trace

/-- A concrete one-point model with unit white kernel, zero targets and
zero noise; its covariance matrix is the identity. -/
def mW1 : GPR (Fin 1) 1 :=
  GPR.mk (Kern.white 1 1) (fun _ _ => 0) (fun _ => 0) 0

/-- Modelled from the spec: validity of a kernel's hyperparameters; every
variance, lengthscale, RatQuad power, StdPeriodic period and polynomial
scale carries a positivity constraint, the polynomial bias is
non-negative, and the ARD linear kernel constrains every per-dimension
variance (spec section 4.1). -/
def Kern.valid : {d : ℕ} → Kern d → Prop
  | _, .rbf v l _ => 0 < v ∧ 0 < l
  | _, .exponential v l _ => 0 < v ∧ 0 < l
  | _, .matern32 v l _ => 0 < v ∧ 0 < l
  | _, .matern52 v l _ => 0 < v ∧ 0 < l
  | _, .ratquad v l a _ => 0 < v ∧ 0 < l ∧ 0 < a
  | _, .stdperiodic v l T _ => 0 < v ∧ 0 < l ∧ 0 < T
  | _, .linear w => ∀ t, 0 < w t
  | _, .poly v s c _ _ => 0 < v ∧ 0 < s ∧ 0 ≤ c
  | _, .white v _ => 0 < v
  | _, .sum k1 k2 => k1.valid ∧ k2.valid
  | _, .prod k1 k2 => k1.valid ∧ k2.valid
  | _, .masked k _ => k.valid

/-- The quadratic form xᵗ M x of a matrix, written as a double sum. -/
def quadForm (M : Matrix ι ι ℝ) (x : ι → ℝ) : ℝ :=
  ∑ i, ∑ j, x i * M i j * x j

/-- The Gram matrix of a finite family of feature vectors. -/
def gramOf {κ : Type} [Fintype κ] (f : ι → κ → ℝ) : Matrix ι ι ℝ :=
  fun i j => ∑ k, f i k * f j k

/-- Modelled from the spec: the model refitted without training point i
(brute-force leave-one-out), indexed by the remaining points. -/
def dropPoint (m : GPR ι d) (i : ι) : GPR {j : ι // j ≠ i} d :=
  GPR.mk m.kern (fun j => m.X j.1) (fun j => m.y j.1) m.noise

/-- Modelled from the spec: the closed-form leave-one-out predictive mean
mu_i = y_i - [K⁻¹y]_i / [K⁻¹]_ii (notebook markdown, spec section 4.4). -/
def looMean (m : GPR ι d) (i : ι) : ℝ :=
  m.y i - ((covMatrix m)⁻¹ *ᵥ m.y) i / ((covMatrix m)⁻¹ i i)

/-- Modelled from the spec: the closed-form leave-one-out predictive
variance sigma_i = 1 / [K⁻¹]_ii (notebook markdown, spec section 4.4). -/
def looVariance (m : GPR ι d) (i : ι) : ℝ :=
  1 / ((covMatrix m)⁻¹ i i)

/-- A concrete one-point model: unit white kernel, observation-noise
variance 1, a single training point at the origin with target 0. -/
def mEx : GPR (Fin 1) 1 :=
  GPR.mk (Kern.white 1 1) (fun _ _ => 0) (fun _ => 0) 1

instance : IsEmpty {j : Fin 1 // j ≠ 0} :=
  ⟨fun a => a.2 (Subsingleton.elim _ _)⟩

/-- C3: for every pair of kernels and every pair of input points, the Sum
combinator evaluates to the sum of the constituents' evaluations and the
Product combinator to their product, and the same identities hold
entrywise for full-matrix evaluation. -/
theorem sum_prod_combinators {d : ℕ} (k1 k2 : Kern d) (x x' : Fin d → ℝ)
    {ι κ : Type} (X : ι → Fin d → ℝ) (Y : κ → Fin d → ℝ) :
    (Kern.sum k1 k2).evaluate x x' = k1.evaluate x x' + k2.evaluate x x' ∧
    (Kern.prod k1 k2).evaluate x x' = k1.evaluate x x' * k2.evaluate x x' ∧
    (Kern.sum k1 k2).K X Y = k1.K X Y + k2.K X Y ∧
    ∀ i j, (Kern.prod k1 k2).K X Y i j = k1.K X Y i j * k2.K X Y i j := by
  refine ⟨rfl, rfl, ?_, fun i j => rfl⟩
  ext i j
  rfl

/-- C10: the RBF kernel with variance v and lengthscale l evaluates to
exactly v * exp(-dist² / (2 l²)); it equals v at identical inputs and is
strictly positive everywhere. -/
theorem rbf_eval {d : ℕ} (v l : ℝ) (x y : Fin d → ℝ) (hv : 0 < v) :
    (Kern.rbf v l d).evaluate x y =
      v * Real.exp (-(∑ t, (x t - y t) ^ 2) / (2 * l ^ 2)) ∧
    (Kern.rbf v l d).evaluate x x = v ∧
    0 < (Kern.rbf v l d).evaluate x y := by
  refine ⟨rfl, ?_, mul_pos hv (Real.exp_pos _)⟩
  have h0 : (∑ t, (x t - x t) ^ 2) = 0 := by simp
  simp [Kern.evaluate, h0]

/-- Witness for C10 at variance 1, lengthscale 1 and concrete points. -/
theorem rbf_eval_witness :
    (Kern.rbf 1 1 1).evaluate (fun _ => 0) (fun _ => 0) = 1 ∧
    0 < (Kern.rbf 1 1 1).evaluate (fun _ => 0) (fun _ => 1) :=
  ⟨(rbf_eval 1 1 (fun _ => 0) (fun _ => 0) (by norm_num)).2.1,
   (rbf_eval 1 1 (fun _ => 0) (fun _ => 1) (by norm_num)).2.2⟩

/-- C1: for every fitted regression model and every query point, predict
returns mean k*ᵗ alpha with alpha = K⁻¹ y, and variance
k(x*, x*) - k*ᵗ K⁻¹ k* clamped to be non-negative; in particular the
returned variance is non-negative for every query point. -/
theorem predict_spec (m : GPR ι d) (xs : Fin d → ℝ) :
    (predict m xs).1 = kvec m xs ⬝ᵥ alphaVec m ∧
    alphaVec m = (covMatrix m)⁻¹ *ᵥ m.y ∧
    (predict m xs).2 =
      max 0 (m.kern.evaluate xs xs - kvec m xs ⬝ᵥ ((covMatrix m)⁻¹ *ᵥ kvec m xs)) ∧
    0 ≤ (predict m xs).2 :=
  ⟨rfl, rfl, rfl, le_max_left _ _⟩

theorem optStep_fixed {P : Type} (obj : (P → ℝ) → ℝ) (fixed : P → Bool)
    (cur cand : P → ℝ) (p : P) (hp : fixed p = true) :
    optStep obj fixed cur cand p = cur p := by
  unfold optStep applyFree
  split <;> simp [hp]

theorem optStep_le {P : Type} (obj : (P → ℝ) → ℝ) (fixed : P → Bool)
    (cur cand : P → ℝ) : obj cur ≤ obj (optStep obj fixed cur cand) := by
  unfold optStep
  split
  · assumption
  · exact le_rfl

theorem optimizeE_ok {P : Type} (obj : (P → ℝ) → ℝ) (fixed : P → Bool) :
    ∀ (cands : List (Option (P → ℝ))) (cur θ' : P → ℝ),
      optimizeE obj fixed cur cands = .ok θ' →
      (∀ p, fixed p = true → θ' p = cur p) ∧ obj cur ≤ obj θ' := by
  intro cands
  induction cands with
  | nil =>
    intro cur θ' h
    cases h
    exact ⟨fun _ _ => rfl, le_rfl⟩
  | cons c rest ih =>
    intro cur θ' h
    cases c with
    | none => cases h
    | some cand =>
      have h' := ih (optStep obj fixed cur cand) θ' h
      refine ⟨fun p hp => (h'.1 p hp).trans (optStep_fixed obj fixed cur cand p hp), ?_⟩
      exact (optStep_le obj fixed cur cand).trans h'.2

/-- C5: every hyperparameter marked fixed before a call to optimize has
exactly the same value after the call, while the free parameters change
only so that the log marginal likelihood increases or stays the same. -/
theorem optimize_fixed_params {P : Type} (M : (P → ℝ) → GPR ι d)
    (fixed : P → Bool) (θ₀ : P → ℝ) (cands : List (Option (P → ℝ)))
    (θ' : P → ℝ)
    (h : optimizeE (fun θ => lml (M θ)) fixed θ₀ cands = .ok θ') :
    (∀ p, fixed p = true → θ' p = θ₀ p) ∧ lml (M θ₀) ≤ lml (M θ') :=
  optimizeE_ok (fun θ => lml (M θ)) fixed cands θ₀ θ' h

/-- Witness for C5: empty trial list on a concrete one-point model. -/
theorem optimize_fixed_params_witness :
    (∀ p : Fin 1, (fun _ : Fin 1 => true) p = true →
      (fun _ : Fin 1 => (0 : ℝ)) p = (fun _ : Fin 1 => (0 : ℝ)) p) ∧
    lml ((fun _ : Fin 1 → ℝ =>
        GPR.mk (ι := Fin 1) (Kern.white 1 1) (fun _ _ => 0) (fun _ => 0) 1)
        (fun _ => 0)) ≤
    lml ((fun _ : Fin 1 → ℝ =>
        GPR.mk (ι := Fin 1) (Kern.white 1 1) (fun _ _ => 0) (fun _ => 0) 1)
        (fun _ => 0)) :=
  optimize_fixed_params
    (fun _ : Fin 1 → ℝ =>
      GPR.mk (ι := Fin 1) (Kern.white 1 1) (fun _ _ => 0) (fun _ => 0) 1)
    (fun _ => true) (fun _ => 0) [] (fun _ => 0) rfl

/-- C6: a call to optimize either succeeds and commits the whole free
parameter vector atomically (fixed parameters untouched), or fails and
leaves the hyperparameter state exactly as it was before the call. -/
theorem optimize_atomic {P : Type} (M : (P → ℝ) → GPR ι d)
    (fixed : P → Bool) (θ₀ : P → ℝ) (cands : List (Option (P → ℝ))) :
    (∃ θ', optimizeE (fun θ => lml (M θ)) fixed θ₀ cands = .ok θ' ∧
      optimizeModel (fun θ => lml (M θ)) fixed θ₀ cands = θ' ∧
      ∀ p, fixed p = true → θ' p = θ₀ p) ∨
    ((∃ e, optimizeE (fun θ => lml (M θ)) fixed θ₀ cands = .error e) ∧
      optimizeModel (fun θ => lml (M θ)) fixed θ₀ cands = θ₀) := by
  rcases h : optimizeE (fun θ => lml (M θ)) fixed θ₀ cands with e | θ'
  · right
    exact ⟨⟨e, rfl⟩, by unfold optimizeModel; rw [h]⟩
  · left
    refine ⟨θ', rfl, by unfold optimizeModel; rw [h], ?_⟩
    exact (optimizeE_ok (fun θ => lml (M θ)) fixed cands θ₀ θ' h).1

/-- C8: the builder retries with doubled jitter at most a bounded number
of times; it fails with NumericalInstability if and only if every
attempt up to the bound fails, and a success returns the first matrix
along the doubling schedule whose factorization succeeds. -/
theorem jitter_backoff (K : Matrix ι ι ℝ) (ε : ℝ) (n : ℕ) :
    (buildWithJitter K ε n = .error .numericalInstability ↔
      ∀ t < n, ¬ choleskySucceeds (K + (2 ^ t * ε) • (1 : Matrix ι ι ℝ))) ∧
    (∀ M, buildWithJitter K ε n = .ok M →
      ∃ t, t < n ∧ M = K + (2 ^ t * ε) • (1 : Matrix ι ι ℝ) ∧
        choleskySucceeds M ∧
        ∀ s < t, ¬ choleskySucceeds (K + (2 ^ s * ε) • (1 : Matrix ι ι ℝ))) := by
  induction n generalizing ε with
  | zero =>
    constructor
    · simp [buildWithJitter]
    · intro M h
      simp [buildWithJitter] at h
  | succ n ih =>
    by_cases h : choleskySucceeds (K + ε • (1 : Matrix ι ι ℝ))
    · constructor
      · rw [buildWithJitter, if_pos h]
        constructor
        · intro hfalse
          cases hfalse
        · intro hall
          exact absurd h (by simpa using hall 0 (Nat.succ_pos n))
      · intro M hM
        rw [buildWithJitter, if_pos h] at hM
        cases hM
        refine ⟨0, Nat.succ_pos n, by simp, by simpa using h, ?_⟩
        intro s hs
        cases hs
    · have step : ∀ t : ℕ, 2 ^ (t + 1) * ε = 2 ^ t * (2 * ε) := by
        intro t; ring
      constructor
      · rw [buildWithJitter, if_neg h]
        rw [(ih (2 * ε)).1]
        constructor
        · intro hall t ht
          cases t with
          | zero => simpa using h
          | succ s =>
            rw [step s]
            exact hall s (Nat.lt_of_succ_lt_succ ht)
        · intro hall t ht
          have := hall (t + 1) (Nat.succ_lt_succ ht)
          rwa [step t] at this
      · intro M hM
        rw [buildWithJitter, if_neg h] at hM
        obtain ⟨t, ht, hMeq, hsucc, hmin⟩ := (ih (2 * ε)).2 M hM
        refine ⟨t + 1, Nat.succ_lt_succ ht, by rwa [step t], hsucc, ?_⟩
        intro s hs
        cases s with
        | zero => simpa using h
        | succ s' =>
          rw [step s']
          exact hmin s' (Nat.lt_of_succ_lt_succ hs)

/-- C9: every dataset accepted by the core has equally many inputs and
targets, all inputs share one fixed dimension d, and for classification
every target is +1 or -1. -/
theorem dataset_invariants (d : ℕ) (t : Task) (r : RawData)
    (h : validate d t r = .ok ()) :
    r.xs.length = r.ys.length ∧ (∀ x ∈ r.xs, x.length = d) ∧
    (t = Task.classification → ∀ z ∈ r.ys, z = 1 ∨ z = -1) := by
  unfold validate at h
  split_ifs at h with h1 h2 h3
  refine ⟨not_ne_iff.mp h1, h2, fun ht => ?_⟩
  by_contra hz
  exact h3 ⟨ht, fun hall => hz hall⟩

/-- Witness for C9 on a concrete accepted classification dataset. -/
theorem dataset_invariants_witness :
    (RawData.mk [[0]] [1]).xs.length = (RawData.mk [[0]] [1]).ys.length ∧
    (∀ x ∈ (RawData.mk [[0]] [1]).xs, x.length = 1) ∧
    (Task.classification = Task.classification →
      ∀ z ∈ (RawData.mk [[0]] [1]).ys, z = 1 ∨ z = -1) :=
  dataset_invariants 1 Task.classification (RawData.mk [[0]] [1]) (by
    simp [validate])

omit [DecidableEq ι] in
theorem trace_vecMulVec_mul (v : ι → ℝ) (D : Matrix ι ι ℝ) :
    (vecMulVec v v * D).trace = v ⬝ᵥ (D *ᵥ v) := by
  simp only [Matrix.trace, Matrix.diag, Matrix.mul_apply, Matrix.vecMulVec_apply,
    dotProduct, Matrix.mulVec, Finset.mul_sum]
  rw [Finset.sum_comm]
  refine Finset.sum_congr rfl fun j _ => Finset.sum_congr rfl fun i _ => ?_
  ring

/-- C2: with a lower-triangular positive-diagonal factor L of the
regularized covariance K, the log marginal likelihood from the Cholesky
diagonal equals -(1/2) yᵗ alpha - (1/2) log det K - (N/2) log(2 pi), and
the hyperparameter gradient (1/2) tr((alpha alphaᵗ - K⁻¹) D) equals the
K⁻¹-free rearrangement (1/2)(alphaᵗ D alpha - tr(K⁻¹ D)). -/
theorem log_marginal_likelihood_spec [LinearOrder ι] (m : GPR ι d)
    (L D : Matrix ι ι ℝ)
    (htri : L.BlockTriangular OrderDual.toDual)
    (hdiag : ∀ i, 0 < L i i)
    (hfact : L * Lᵀ = covMatrix m) :
    log_marginal_likelihood m L = lml m ∧
    gradLML m D =
      (1 / 2) * (alphaVec m ⬝ᵥ (D *ᵥ alphaVec m) - ((covMatrix m)⁻¹ * D).trace) := by
  constructor
  · have hdet : (covMatrix m).det = (∏ i, L i i) ^ 2 := by
      rw [← hfact, Matrix.det_mul, Matrix.det_transpose,
        Matrix.det_of_lowerTriangular L htri, sq]
    have hlog : Real.log (covMatrix m).det = 2 * ∑ i, Real.log (L i i) := by
      rw [hdet, Real.log_pow, Real.log_prod _ _ fun i _ => (hdiag i).ne']
      push_cast
      ring
    unfold log_marginal_likelihood lml
    rw [hlog]
    ring
  · unfold gradLML
    rw [Matrix.sub_mul, Matrix.trace_sub, trace_vecMulVec_mul]

theorem covMatrix_mW1 : covMatrix mW1 = (1 : Matrix (Fin 1) (Fin 1) ℝ) := by
  ext i j
  fin_cases i
  fin_cases j
  simp [covMatrix, mW1, Kern.evaluate, Matrix.one_apply]

/-- Witness for C2: the identity matrix is a Cholesky factor of the
covariance of the concrete one-point model. -/
theorem log_marginal_likelihood_spec_witness :
    log_marginal_likelihood mW1 (1 : Matrix (Fin 1) (Fin 1) ℝ) = lml mW1 ∧
    gradLML mW1 (1 : Matrix (Fin 1) (Fin 1) ℝ) =
      (1 / 2) * (alphaVec mW1 ⬝ᵥ ((1 : Matrix (Fin 1) (Fin 1) ℝ) *ᵥ alphaVec mW1) -
        ((covMatrix mW1)⁻¹ * (1 : Matrix (Fin 1) (Fin 1) ℝ)).trace) :=
  log_marginal_likelihood_spec mW1 1 1
    (by
      intro i j hij
      fin_cases i
      fin_cases j
      exact absurd hij (lt_irrefl _))
    (by
      intro i
      fin_cases i
      simp)
    (by rw [Matrix.transpose_one, Matrix.mul_one, covMatrix_mW1])

omit [DecidableEq ι] in
theorem posSemidef_of_quadForm (M : Matrix ι ι ℝ) (hs : ∀ i j, M i j = M j i)
    (hq : ∀ x, 0 ≤ quadForm M x) : M.PosSemidef := by
  constructor
  · ext i j
    simp only [Matrix.conjTranspose_apply, star_trivial]
    exact hs j i
  · intro x
    have h := hq x
    unfold quadForm at h
    simpa [Matrix.dotProduct, Matrix.mulVec, Finset.mul_sum, mul_assoc] using h

omit [DecidableEq ι] in
theorem quadForm_gramOf_nonneg {κ : Type} [Fintype κ] (f : ι → κ → ℝ)
    (x : ι → ℝ) : 0 ≤ quadForm (gramOf f) x := by
  have key : quadForm (gramOf f) x = ∑ k, (∑ i, x i * f i k) ^ 2 := by
    unfold quadForm gramOf
    have h1 : ∀ i j : ι, x i * (∑ k, f i k * f j k) * x j =
        ∑ k, (x i * f i k) * (x j * f j k) := by
      intro i j
      rw [Finset.mul_sum, Finset.sum_mul]
      exact Finset.sum_congr rfl fun k _ => by ring
    calc ∑ i, ∑ j, x i * (∑ k, f i k * f j k) * x j
        = ∑ i, ∑ j, ∑ k, (x i * f i k) * (x j * f j k) := by
          exact Finset.sum_congr rfl fun i _ => Finset.sum_congr rfl fun j _ => h1 i j
      _ = ∑ i, ∑ k, ∑ j, (x i * f i k) * (x j * f j k) :=
          Finset.sum_congr rfl fun i _ => Finset.sum_comm
      _ = ∑ k, ∑ i, ∑ j, (x i * f i k) * (x j * f j k) := Finset.sum_comm
      _ = ∑ k, ∑ i, (x i * f i k) * (∑ j, x j * f j k) := by
          simp_rw [← Finset.mul_sum]
      _ = ∑ k, (∑ i, x i * f i k) * (∑ j, x j * f j k) := by
          simp_rw [← Finset.sum_mul]
      _ = ∑ k, (∑ i, x i * f i k) ^ 2 := by
          exact Finset.sum_congr rfl fun k _ => (sq (∑ i, x i * f i k)).symm ▸ by ring
  rw [key]
  exact Finset.sum_nonneg fun k _ => sq_nonneg _

omit [DecidableEq ι] in
theorem gramOf_posSemidef {κ : Type} [Fintype κ] (f : ι → κ → ℝ) :
    (gramOf f).PosSemidef :=
  posSemidef_of_quadForm _
    (fun _ _ => Finset.sum_congr rfl fun _ _ => mul_comm _ _)
    (quadForm_gramOf_nonneg f)

omit [Fintype ι] [DecidableEq ι] in
theorem gramOf_pair {κ₁ κ₂ : Type} [Fintype κ₁] [Fintype κ₂]
    (g : ι → κ₁ → ℝ) (h : ι → κ₂ → ℝ) (i j : ι) :
    gramOf (fun a (kl : κ₁ × κ₂) => g a kl.1 * h a kl.2) i j =
      gramOf g i j * gramOf h i j := by
  unfold gramOf
  rw [Finset.sum_mul_sum]
  rw [Fintype.sum_prod_type]
  exact Finset.sum_congr rfl fun k _ => Finset.sum_congr rfl fun l _ => by ring

omit [Fintype ι] [DecidableEq ι] in
theorem exists_gram_pow {κ : Type} [Fintype κ] (f : ι → κ → ℝ) :
    ∀ n : ℕ, ∃ (κ' : Type) (_ : Fintype κ') (h : ι → κ' → ℝ),
      ∀ i j, (gramOf f i j) ^ n = gramOf h i j := by
  intro n
  induction n with
  | zero =>
    refine ⟨Unit, inferInstance, fun _ _ => 1, fun i j => ?_⟩
    simp [gramOf]
  | succ n ih =>
    obtain ⟨κ', inst, h, hh⟩ := ih
    letI := inst
    refine ⟨κ' × κ, inferInstance, fun a (kl : κ' × κ) => h a kl.1 * f a kl.2,
      fun i j => ?_⟩
    rw [pow_succ, hh i j]
    exact (gramOf_pair h f i j).symm

omit [DecidableEq ι] in
theorem quadForm_gram_pow_nonneg {κ : Type} [Fintype κ] (f : ι → κ → ℝ)
    (x : ι → ℝ) (n : ℕ) : 0 ≤ ∑ i, ∑ j, x i * (gramOf f i j) ^ n * x j := by
  obtain ⟨κ', inst, h, hh⟩ := exists_gram_pow f n
  simp_rw [hh]
  exact quadForm_gramOf_nonneg h x

theorem real_exp_eq_tsum (s : ℝ) : Real.exp s = tsum (fun n : ℕ => s ^ n / n.factorial) := by
  rw [Real.exp_eq_exp_ℝ, NormedSpace.exp_eq_tsum_div]

omit [DecidableEq ι] in
theorem quadForm_exp_gram_nonneg {κ : Type} [Fintype κ] (f : ι → κ → ℝ)
    (c : ι → ℝ) : 0 ≤ ∑ i, ∑ j, c i * Real.exp (gramOf f i j) * c j := by
  have hsummable : ∀ i j : ι,
      Summable fun n : ℕ => (c i * c j) * ((gramOf f i j) ^ n / n.factorial) :=
    fun i j => (Real.summable_pow_div_factorial _).mul_left _
  have hterm : ∀ i j : ι,
      c i * Real.exp (gramOf f i j) * c j =
        tsum (fun n : ℕ => (c i * c j) * ((gramOf f i j) ^ n / n.factorial)) := by
    intro i j
    calc c i * Real.exp (gramOf f i j) * c j
        = (c i * c j) * Real.exp (gramOf f i j) := by ring
      _ = (c i * c j) * tsum (fun n : ℕ => (gramOf f i j) ^ n / n.factorial) := by
          rw [real_exp_eq_tsum]
      _ = tsum (fun n : ℕ => (c i * c j) * ((gramOf f i j) ^ n / n.factorial)) :=
          tsum_mul_left.symm
  have hswap : ∑ i, ∑ j, c i * Real.exp (gramOf f i j) * c j =
      tsum (fun n : ℕ => ∑ i, ∑ j, (c i * c j) * ((gramOf f i j) ^ n / n.factorial)) := by
    have hrow : ∀ i : ι,
        ∑ j, c i * Real.exp (gramOf f i j) * c j =
          tsum (fun n : ℕ => ∑ j, (c i * c j) * ((gramOf f i j) ^ n / n.factorial)) := by
      intro i
      rw [show (∑ j, c i * Real.exp (gramOf f i j) * c j) =
        ∑ j, tsum (fun n : ℕ => (c i * c j) * ((gramOf f i j) ^ n / n.factorial)) from
        Finset.sum_congr rfl fun j _ => hterm i j]
      exact (tsum_sum fun j _ => hsummable i j).symm
    rw [Finset.sum_congr rfl fun i _ => hrow i]
    exact (tsum_sum fun i _ => summable_sum fun j _ => hsummable i j).symm
  rw [hswap]
  refine tsum_nonneg fun n => ?_
  have hdiv : ∑ i, ∑ j, (c i * c j) * ((gramOf f i j) ^ n / n.factorial)
      = (∑ i, ∑ j, c i * (gramOf f i j) ^ n * c j) / n.factorial := by
    rw [Finset.sum_div]
    refine Finset.sum_congr rfl fun i _ => ?_
    rw [Finset.sum_div]
    exact Finset.sum_congr rfl fun j _ => by ring
  rw [hdiv]
  exact div_nonneg (quadForm_gram_pow_nonneg f c n) (Nat.cast_nonneg _)

open MeasureTheory Set

/-! Analysis toolkit for the positive-semidefiniteness of the stationary
kernel family: Gaussian-type integrals of exp(-x^2 - b^2/x^2) and their
second and fourth moments, scale-mixture representations of the
Exponential, Matern and RatQuad kernels, and the resulting
non-negativity of mixture quadratic forms. -/

theorem mul_exp_neg_le (t : ℝ) : t * Real.exp (-t) ≤ Real.exp (-1) := by
  have h1 : t ≤ Real.exp (t - 1) := by
    have := Real.add_one_le_exp (t - 1)
    linarith
  have h2 : t * Real.exp (-t) ≤ Real.exp (t - 1) * Real.exp (-t) :=
    mul_le_mul_of_nonneg_right h1 (Real.exp_pos _).le
  calc t * Real.exp (-t) ≤ Real.exp (t - 1) * Real.exp (-t) := h2
    _ = Real.exp (-1) := by
      rw [← Real.exp_add]
      congr 1
      ring

theorem integrableOn_pow_mul_exp_neg_sq (k : ℕ) :
    IntegrableOn (fun x : ℝ => x ^ k * Real.exp (-x ^ 2)) (Ioi 0) := by
  have h := integrableOn_rpow_mul_exp_neg_mul_sq (b := 1) one_pos
    (s := (k : ℝ)) (neg_one_lt_zero.trans_le (Nat.cast_nonneg k))
  refine h.congr_fun (fun x hx => ?_) measurableSet_Ioi
  rw [Real.rpow_natCast]
  norm_num

theorem mix_exponent_nonpos (b x : ℝ) : -x ^ 2 - b ^ 2 / x ^ 2 ≤ 0 := by
  have h1 : 0 ≤ x ^ 2 := sq_nonneg x
  have h2 : 0 ≤ b ^ 2 / x ^ 2 := div_nonneg (sq_nonneg b) (sq_nonneg x)
  linarith

theorem mix_exp_le (b x : ℝ) :
    Real.exp (-x ^ 2 - b ^ 2 / x ^ 2) ≤ Real.exp (-x ^ 2) := by
  apply Real.exp_le_exp.mpr
  have h2 : 0 ≤ b ^ 2 / x ^ 2 := div_nonneg (sq_nonneg b) (sq_nonneg x)
  linarith

theorem continuousOn_mix (k : ℕ) (b : ℝ) :
    ContinuousOn (fun x : ℝ => x ^ k * Real.exp (-x ^ 2 - b ^ 2 / x ^ 2)) (Ioi 0) := by
  apply ContinuousOn.mul
  · exact (continuous_pow k).continuousOn
  · apply Real.continuous_exp.comp_continuousOn
    apply ContinuousOn.sub
    · exact (continuous_pow 2).neg.continuousOn
    · exact continuousOn_const.div (continuous_pow 2).continuousOn
        (fun x hx => pow_ne_zero 2 (ne_of_gt hx))

theorem integrableOn_mix (k : ℕ) (b : ℝ) :
    IntegrableOn (fun x : ℝ => x ^ k * Real.exp (-x ^ 2 - b ^ 2 / x ^ 2)) (Ioi 0) := by
  apply Integrable.mono' (integrableOn_pow_mul_exp_neg_sq k)
  · exact (continuousOn_mix k b).aestronglyMeasurable measurableSet_Ioi
  · filter_upwards [ae_restrict_mem measurableSet_Ioi] with x hx
    have hx0 : 0 < x := hx
    rw [Real.norm_eq_abs, abs_mul, abs_of_pos (pow_pos hx0 k),
      abs_of_pos (Real.exp_pos _)]
    exact mul_le_mul_of_nonneg_left (mix_exp_le b x) (pow_pos hx0 k).le

theorem integrableOn_inv_sq_mix (b : ℝ) :
    IntegrableOn (fun x : ℝ => b ^ 2 / x ^ 2 * Real.exp (-x ^ 2 - b ^ 2 / x ^ 2))
      (Ioi 0) := by
  apply Integrable.mono'
    ((integrableOn_pow_mul_exp_neg_sq 0).const_mul (Real.exp (-1)))
  · apply ContinuousOn.aestronglyMeasurable _ measurableSet_Ioi
    apply ContinuousOn.mul
    · exact continuousOn_const.div (continuous_pow 2).continuousOn
        (fun x hx => pow_ne_zero 2 (ne_of_gt hx))
    · exact (continuousOn_mix 0 b).congr (fun x _ => by norm_num)
  · filter_upwards [ae_restrict_mem measurableSet_Ioi] with x hx
    have hx0 : 0 < x := hx
    have hsplit : Real.exp (-x ^ 2 - b ^ 2 / x ^ 2) =
        Real.exp (-x ^ 2) * Real.exp (-(b ^ 2 / x ^ 2)) := by
      rw [← Real.exp_add]
      congr 1
    have hq : 0 ≤ b ^ 2 / x ^ 2 := div_nonneg (sq_nonneg b) (sq_nonneg x)
    rw [Real.norm_eq_abs, abs_mul, abs_of_nonneg hq, abs_of_pos (Real.exp_pos _),
      hsplit]
    calc b ^ 2 / x ^ 2 * (Real.exp (-x ^ 2) * Real.exp (-(b ^ 2 / x ^ 2)))
        = (b ^ 2 / x ^ 2 * Real.exp (-(b ^ 2 / x ^ 2))) * Real.exp (-x ^ 2) := by ring
      _ ≤ Real.exp (-1) * Real.exp (-x ^ 2) := by
          apply mul_le_mul_of_nonneg_right (mul_exp_neg_le _) (Real.exp_pos _).le
      _ = Real.exp (-1) * (x ^ 0 * Real.exp (-x ^ 2)) := by norm_num

theorem subst_reflect (b : ℝ) (hb : 0 < b) (g : ℝ → ℝ) :
    ∫ x in Ioi (0:ℝ), g x = ∫ x in Ioi (0:ℝ), b / x ^ 2 * g (b / x) := by
  have himg : (fun x : ℝ => b / x) '' Ioi 0 = Ioi 0 := by
    ext y
    constructor
    · rintro ⟨x, hx, rfl⟩
      exact div_pos hb hx
    · intro hy
      exact ⟨b / y, div_pos hb hy, by field_simp⟩
  have hderiv : ∀ x ∈ Ioi (0:ℝ),
      HasDerivWithinAt (fun x : ℝ => b / x) (-(b / x ^ 2)) (Ioi 0) x := by
    intro x hx
    have hx0 : (0:ℝ) < x := hx
    have h2 := (hasDerivAt_inv (ne_of_gt hx0)).const_mul b
    have h3 : (fun x : ℝ => b * x⁻¹) = fun x : ℝ => b / x := by
      funext t; rw [div_eq_mul_inv]
    rw [h3] at h2
    have h4 : b * -(↑x ^ 2)⁻¹ = -(b / x ^ 2) := by field_simp
    rw [h4] at h2
    exact h2.hasDerivWithinAt
  have hinj : InjOn (fun x : ℝ => b / x) (Ioi 0) := by
    intro x hx y hy hxy
    have hx0 : (0:ℝ) < x := hx
    have hy0 : (0:ℝ) < y := hy
    have hxy' : b / x = b / y := hxy
    field_simp at hxy'
    rcases hxy' with h | h
    · exact h.symm
    · exact absurd h (ne_of_gt hb)
  calc ∫ x in Ioi (0:ℝ), g x = ∫ x in (fun x : ℝ => b / x) '' Ioi 0, g x := by
        rw [himg]
    _ = ∫ x in Ioi (0:ℝ), |(-(b / x ^ 2))| • g (b / x) :=
        integral_image_eq_integral_abs_deriv_smul measurableSet_Ioi hderiv hinj g
    _ = ∫ x in Ioi (0:ℝ), b / x ^ 2 * g (b / x) := by
        apply setIntegral_congr_fun measurableSet_Ioi
        intro x hx
        have hx0 : (0:ℝ) < x := hx
        dsimp only
        rw [abs_neg, abs_of_pos (div_pos hb (pow_pos hx0 2)), smul_eq_mul]

theorem subst_main (b : ℝ) (hb : 0 < b) :
    ∫ x in Ioi (0:ℝ), (1 + b / x ^ 2) * Real.exp (-(x - b / x) ^ 2)
      = Real.sqrt Real.pi := by
  have himg : (fun x : ℝ => x - b / x) '' Ioi 0 = univ := by
    ext y
    simp only [mem_univ, iff_true]
    set s := Real.sqrt (y ^ 2 + 4 * b) with hs
    have hs2 : s ^ 2 = y ^ 2 + 4 * b := Real.sq_sqrt (by positivity)
    have habs : |y| < s := by
      rw [hs]
      rw [show |y| = Real.sqrt (y ^ 2) by rw [Real.sqrt_sq_eq_abs]]
      apply Real.sqrt_lt_sqrt (sq_nonneg y)
      linarith
    have hx0pos : (0:ℝ) < (y + s) / 2 := by
      have : -y ≤ |y| := neg_le_abs y
      have : -y < s := lt_of_le_of_lt this habs
      linarith
    refine ⟨(y + s) / 2, hx0pos, ?_⟩
    have hne : y + s ≠ 0 := by
      intro h
      rw [h] at hx0pos
      norm_num at hx0pos
    dsimp only
    field_simp
    linear_combination hs2
  have hderiv : ∀ x ∈ Ioi (0:ℝ),
      HasDerivWithinAt (fun x : ℝ => x - b / x) (1 + b / x ^ 2) (Ioi 0) x := by
    intro x hx
    have hx0 : (0:ℝ) < x := hx
    have h1 := (hasDerivAt_id x).sub ((hasDerivAt_inv (ne_of_gt hx0)).const_mul b)
    have h3 : (fun y : ℝ => id y - b * y⁻¹) = fun y : ℝ => y - b / y := by
      funext t
      simp [div_eq_mul_inv]
    rw [h3] at h1
    have h4 : 1 - b * -(↑x ^ 2)⁻¹ = 1 + b / x ^ 2 := by field_simp
    rw [h4] at h1
    exact h1.hasDerivWithinAt
  have hmono : StrictMonoOn (fun x : ℝ => x - b / x) (Ioi 0) := by
    intro x hx y hy hxy
    have hx0 : (0:ℝ) < x := hx
    exact sub_lt_sub hxy (div_lt_div_of_pos_left hb hx0 hxy)
  have hinj : InjOn (fun x : ℝ => x - b / x) (Ioi 0) := hmono.injOn
  have key := integral_image_eq_integral_abs_deriv_smul measurableSet_Ioi hderiv hinj
    (fun u : ℝ => Real.exp (-u ^ 2))
  rw [himg] at key
  have hgauss : ∫ u : ℝ, Real.exp (-u ^ 2) = Real.sqrt Real.pi := by
    have h := integral_gaussian 1
    simp only [one_mul, neg_mul] at h
    rw [h]
    norm_num
  have key2 : ∫ x in Ioi (0:ℝ), |1 + b / x ^ 2| • Real.exp (-(x - b / x) ^ 2)
      = Real.sqrt Real.pi := by
    rw [← key, setIntegral_univ]
    exact hgauss
  rw [← key2]
  apply setIntegral_congr_fun measurableSet_Ioi
  intro x hx
  have hx0 : (0:ℝ) < x := hx
  have hpos : (0:ℝ) < 1 + b / x ^ 2 := by positivity
  dsimp only
  rw [abs_of_pos hpos, smul_eq_mul]

theorem mix_pointwise (b x : ℝ) (hx : 0 < x) :
    -x ^ 2 - b ^ 2 / x ^ 2 = -(2 * b) + -(x - b / x) ^ 2 := by
  field_simp
  ring

theorem integrableOn_gsub (b : ℝ) :
    IntegrableOn (fun x : ℝ => Real.exp (-(x - b / x) ^ 2)) (Ioi 0) := by
  have h : IntegrableOn
      (fun x : ℝ => Real.exp (2 * b) * (x ^ 0 * Real.exp (-x ^ 2 - b ^ 2 / x ^ 2)))
      (Ioi 0) :=
    (integrableOn_mix 0 b).const_mul (Real.exp (2 * b))
  refine h.congr_fun (fun x hx => ?_) measurableSet_Ioi
  have hx0 : (0:ℝ) < x := hx
  rw [pow_zero, one_mul, ← Real.exp_add]
  congr 1
  rw [mix_pointwise b x hx0]
  ring

theorem integrableOn_gsub_reflect (b : ℝ) (hb : 0 < b) :
    IntegrableOn (fun x : ℝ => b / x ^ 2 * Real.exp (-(x - b / x) ^ 2)) (Ioi 0) := by
  have h : IntegrableOn
      (fun x : ℝ => Real.exp (2 * b) / b
        * (b ^ 2 / x ^ 2 * Real.exp (-x ^ 2 - b ^ 2 / x ^ 2)))
      (Ioi 0) :=
    (integrableOn_inv_sq_mix b).const_mul (Real.exp (2 * b) / b)
  refine h.congr_fun (fun x hx => ?_) measurableSet_Ioi
  have hx0 : (0:ℝ) < x := hx
  have hsplit : Real.exp (-(x - b / x) ^ 2)
      = Real.exp (2 * b) * Real.exp (-x ^ 2 - b ^ 2 / x ^ 2) := by
    rw [← Real.exp_add]
    congr 1
    rw [mix_pointwise b x hx0]
    ring
  rw [hsplit]
  field_simp
  ring

theorem mix_integral_zero (b : ℝ) (hb : 0 ≤ b) :
    ∫ x in Ioi (0:ℝ), Real.exp (-x ^ 2 - b ^ 2 / x ^ 2)
      = Real.sqrt Real.pi / 2 * Real.exp (-(2 * b)) := by
  rcases eq_or_lt_of_le hb with hb0 | hbpos
  · subst hb0
    have h := integral_gaussian_Ioi 1
    simp only [one_mul, neg_mul] at h
    have hcong : ∀ x ∈ Ioi (0:ℝ),
        Real.exp (-x ^ 2 - 0 ^ 2 / x ^ 2) = Real.exp (-x ^ 2) := by
      intro x hx
      norm_num
    rw [setIntegral_congr_fun measurableSet_Ioi hcong, h]
    norm_num
  · set T := ∫ x in Ioi (0:ℝ), Real.exp (-(x - b / x) ^ 2) with hT
    set U := ∫ x in Ioi (0:ℝ), b / x ^ 2 * Real.exp (-(x - b / x) ^ 2) with hU
    have hTU : T = U := by
      rw [hT, subst_reflect b hbpos (fun x => Real.exp (-(x - b / x) ^ 2)), hU]
      apply setIntegral_congr_fun measurableSet_Ioi
      intro x hx
      have hx0 : (0:ℝ) < x := hx
      have h1 : b / (b / x) = x := by field_simp
      have h2 : (b / x - b / (b / x)) ^ 2 = (x - b / x) ^ 2 := by
        rw [h1]; ring
      dsimp only
      rw [h2]
    have hsum : T + U = Real.sqrt Real.pi := by
      rw [hT, hU, ← integral_add (integrableOn_gsub b) (integrableOn_gsub_reflect b hbpos)]
      rw [← subst_main b hbpos]
      apply setIntegral_congr_fun measurableSet_Ioi
      intro x hx
      dsimp only
      ring
    have hTval : T = Real.sqrt Real.pi / 2 := by
      rw [hTU] at hsum
      rw [hTU]
      linarith
    have hfinal : ∫ x in Ioi (0:ℝ), Real.exp (-x ^ 2 - b ^ 2 / x ^ 2)
        = Real.exp (-(2 * b)) * T := by
      rw [hT, ← integral_mul_left]
      apply setIntegral_congr_fun measurableSet_Ioi
      intro x hx
      have hx0 : (0:ℝ) < x := hx
      dsimp only
      rw [← Real.exp_add, ← mix_pointwise b x hx0]
    rw [hfinal, hTval]
    ring

theorem tendsto_pow_mul_exp_neg_sq_atTop (k : ℕ) :
    Filter.Tendsto (fun x : ℝ => x ^ k * Real.exp (-x ^ 2)) Filter.atTop (nhds 0) := by
  refine squeeze_zero_norm' ?_ (Real.tendsto_pow_mul_exp_neg_atTop_nhds_zero k)
  filter_upwards [Filter.eventually_ge_atTop (1:ℝ)] with x hx
  have hx0 : (0:ℝ) < x := lt_of_lt_of_le one_pos hx
  rw [Real.norm_eq_abs, abs_mul, abs_of_pos (pow_pos hx0 k),
    abs_of_pos (Real.exp_pos _)]
  apply mul_le_mul_of_nonneg_left _ (pow_pos hx0 k).le
  apply Real.exp_le_exp.mpr
  nlinarith

theorem tendsto_pow_mul_mixExp_atTop (k : ℕ) (b : ℝ) :
    Filter.Tendsto (fun x : ℝ => x ^ k * Real.exp (-x ^ 2 - b ^ 2 / x ^ 2))
      Filter.atTop (nhds 0) := by
  refine squeeze_zero_norm' ?_ (tendsto_pow_mul_exp_neg_sq_atTop k)
  filter_upwards [Filter.eventually_gt_atTop (0:ℝ)] with x hx
  rw [Real.norm_eq_abs, abs_mul, abs_of_pos (pow_pos hx k),
    abs_of_pos (Real.exp_pos _)]
  exact mul_le_mul_of_nonneg_left (mix_exp_le b x) (pow_pos hx k).le

theorem continuousWithinAt_pow_mul_mixExp (k : ℕ) (hk : 0 < k) (b : ℝ) :
    ContinuousWithinAt (fun x : ℝ => x ^ k * Real.exp (-x ^ 2 - b ^ 2 / x ^ 2))
      (Ici 0) 0 := by
  have h0 : (fun x : ℝ => x ^ k * Real.exp (-x ^ 2 - b ^ 2 / x ^ 2)) 0 = 0 := by
    simp [zero_pow hk.ne']
  unfold ContinuousWithinAt
  rw [h0]
  have hc : Filter.Tendsto (fun x : ℝ => |x| ^ k) (nhds 0) (nhds (|(0:ℝ)| ^ k)) :=
    (continuous_abs.pow k).tendsto 0
  have hz : |(0:ℝ)| ^ k = 0 := by simp [zero_pow hk.ne']
  rw [hz] at hc
  refine squeeze_zero_norm (fun x => ?_) (hc.mono_left nhdsWithin_le_nhds)
  rw [Real.norm_eq_abs, abs_mul, abs_pow]
  calc |x| ^ k * |Real.exp (-x ^ 2 - b ^ 2 / x ^ 2)|
      ≤ |x| ^ k * 1 := by
        apply mul_le_mul_of_nonneg_left _ (pow_nonneg (abs_nonneg x) k)
        rw [abs_of_pos (Real.exp_pos _)]
        exact Real.exp_le_one_iff.mpr (mix_exponent_nonpos b x)
    _ = |x| ^ k := mul_one _

theorem hasDerivAt_mixExp (b x : ℝ) (hx : 0 < x) :
    HasDerivAt (fun x : ℝ => Real.exp (-x ^ 2 - b ^ 2 / x ^ 2))
      (Real.exp (-x ^ 2 - b ^ 2 / x ^ 2) * (-(2 * x) + 2 * b ^ 2 / x ^ 3)) x := by
  have hpow : HasDerivAt (fun x : ℝ => x ^ 2) (2 * x) x := by
    simpa using hasDerivAt_pow 2 x
  have hinv : HasDerivAt (fun x : ℝ => (x ^ 2)⁻¹) (-(2 * x) / (x ^ 2) ^ 2) x :=
    hpow.inv (pow_ne_zero 2 (ne_of_gt hx))
  have hdiv : HasDerivAt (fun x : ℝ => b ^ 2 * (x ^ 2)⁻¹)
      (b ^ 2 * (-(2 * x) / (x ^ 2) ^ 2)) x :=
    hinv.const_mul (b ^ 2)
  have heq : (fun x : ℝ => b ^ 2 * (x ^ 2)⁻¹) = fun x : ℝ => b ^ 2 / x ^ 2 := by
    funext t; rw [div_eq_mul_inv]
  rw [heq] at hdiv
  have hE := hpow.neg.sub hdiv
  have hx' : x ≠ 0 := ne_of_gt hx
  have hEval : -(2 * x) - b ^ 2 * (-(2 * x) / (x ^ 2) ^ 2)
      = -(2 * x) + 2 * b ^ 2 / x ^ 3 := by
    field_simp
    ring
  rw [hEval] at hE
  exact hE.exp

theorem hasDerivAt_mix_parts_one (b x : ℝ) (hx : 0 < x) :
    HasDerivAt (fun x : ℝ => x * Real.exp (-x ^ 2 - b ^ 2 / x ^ 2))
      ((1 - 2 * x ^ 2 + 2 * (b ^ 2 / x ^ 2)) * Real.exp (-x ^ 2 - b ^ 2 / x ^ 2)) x := by
  have hmul := (hasDerivAt_id x).mul (hasDerivAt_mixExp b x hx)
  have hx' : x ≠ 0 := ne_of_gt hx
  have hval : 1 * Real.exp (-x ^ 2 - b ^ 2 / x ^ 2)
      + id x * (Real.exp (-x ^ 2 - b ^ 2 / x ^ 2) * (-(2 * x) + 2 * b ^ 2 / x ^ 3))
      = (1 - 2 * x ^ 2 + 2 * (b ^ 2 / x ^ 2)) * Real.exp (-x ^ 2 - b ^ 2 / x ^ 2) := by
    simp only [id_eq, one_mul]
    field_simp
    ring
  rw [hval] at hmul
  exact hmul

theorem hasDerivAt_mix_parts_three (b x : ℝ) (hx : 0 < x) :
    HasDerivAt (fun x : ℝ => x ^ 3 * Real.exp (-x ^ 2 - b ^ 2 / x ^ 2))
      ((3 * x ^ 2 - 2 * x ^ 4 + 2 * b ^ 2) * Real.exp (-x ^ 2 - b ^ 2 / x ^ 2)) x := by
  have hpow3 : HasDerivAt (fun x : ℝ => x ^ 3) (3 * x ^ 2) x := by
    simpa using hasDerivAt_pow 3 x
  have hmul := hpow3.mul (hasDerivAt_mixExp b x hx)
  have hx' : x ≠ 0 := ne_of_gt hx
  have hval : 3 * x ^ 2 * Real.exp (-x ^ 2 - b ^ 2 / x ^ 2)
      + x ^ 3 * (Real.exp (-x ^ 2 - b ^ 2 / x ^ 2) * (-(2 * x) + 2 * b ^ 2 / x ^ 3))
      = (3 * x ^ 2 - 2 * x ^ 4 + 2 * b ^ 2) * Real.exp (-x ^ 2 - b ^ 2 / x ^ 2) := by
    field_simp
    ring
  rw [hval] at hmul
  exact hmul

theorem integrableOn_mixExp (b : ℝ) :
    IntegrableOn (fun x : ℝ => Real.exp (-x ^ 2 - b ^ 2 / x ^ 2)) (Ioi 0) := by
  refine (integrableOn_mix 0 b).congr_fun (fun x hx => ?_) measurableSet_Ioi
  rw [pow_zero, one_mul]

theorem integrableOn_parts_one (b : ℝ) :
    IntegrableOn (fun x : ℝ =>
      (1 - 2 * x ^ 2 + 2 * (b ^ 2 / x ^ 2)) * Real.exp (-x ^ 2 - b ^ 2 / x ^ 2))
      (Ioi 0) := by
  have h : IntegrableOn (fun x : ℝ =>
      (Real.exp (-x ^ 2 - b ^ 2 / x ^ 2)
        - 2 * (x ^ 2 * Real.exp (-x ^ 2 - b ^ 2 / x ^ 2)))
      + 2 * (b ^ 2 / x ^ 2 * Real.exp (-x ^ 2 - b ^ 2 / x ^ 2))) (Ioi 0) :=
    ((integrableOn_mixExp b).sub ((integrableOn_mix 2 b).const_mul 2)).add
      ((integrableOn_inv_sq_mix b).const_mul 2)
  refine h.congr_fun (fun x hx => ?_) measurableSet_Ioi
  ring

theorem integrableOn_parts_three (b : ℝ) :
    IntegrableOn (fun x : ℝ =>
      (3 * x ^ 2 - 2 * x ^ 4 + 2 * b ^ 2) * Real.exp (-x ^ 2 - b ^ 2 / x ^ 2))
      (Ioi 0) := by
  have h : IntegrableOn (fun x : ℝ =>
      (3 * (x ^ 2 * Real.exp (-x ^ 2 - b ^ 2 / x ^ 2))
        - 2 * (x ^ 4 * Real.exp (-x ^ 2 - b ^ 2 / x ^ 2)))
      + 2 * b ^ 2 * Real.exp (-x ^ 2 - b ^ 2 / x ^ 2)) (Ioi 0) :=
    (((integrableOn_mix 2 b).const_mul 3).sub ((integrableOn_mix 4 b).const_mul 2)).add
      ((integrableOn_mixExp b).const_mul (2 * b ^ 2))
  refine h.congr_fun (fun x hx => ?_) measurableSet_Ioi
  ring

theorem mix_parts_one (b : ℝ) :
    ∫ x in Ioi (0:ℝ),
      (1 - 2 * x ^ 2 + 2 * (b ^ 2 / x ^ 2)) * Real.exp (-x ^ 2 - b ^ 2 / x ^ 2) = 0 := by
  have heq : (fun x : ℝ => x ^ 1 * Real.exp (-x ^ 2 - b ^ 2 / x ^ 2))
      = fun x : ℝ => x * Real.exp (-x ^ 2 - b ^ 2 / x ^ 2) := by
    funext t; rw [pow_one]
  have hcont : ContinuousWithinAt
      (fun x : ℝ => x * Real.exp (-x ^ 2 - b ^ 2 / x ^ 2)) (Ici 0) 0 := by
    rw [← heq]
    exact continuousWithinAt_pow_mul_mixExp 1 one_pos b
  have htend : Filter.Tendsto (fun x : ℝ => x * Real.exp (-x ^ 2 - b ^ 2 / x ^ 2))
      Filter.atTop (nhds 0) := by
    rw [← heq]
    exact tendsto_pow_mul_mixExp_atTop 1 b
  have hres := integral_Ioi_of_hasDerivAt_of_tendsto hcont
    (fun x hx => hasDerivAt_mix_parts_one b x hx) (integrableOn_parts_one b) htend
  rw [hres]
  simp

theorem mix_parts_three (b : ℝ) :
    ∫ x in Ioi (0:ℝ),
      (3 * x ^ 2 - 2 * x ^ 4 + 2 * b ^ 2) * Real.exp (-x ^ 2 - b ^ 2 / x ^ 2) = 0 := by
  have hcont : ContinuousWithinAt
      (fun x : ℝ => x ^ 3 * Real.exp (-x ^ 2 - b ^ 2 / x ^ 2)) (Ici 0) 0 :=
    continuousWithinAt_pow_mul_mixExp 3 (by norm_num) b
  have htend : Filter.Tendsto (fun x : ℝ => x ^ 3 * Real.exp (-x ^ 2 - b ^ 2 / x ^ 2))
      Filter.atTop (nhds 0) := tendsto_pow_mul_mixExp_atTop 3 b
  have hres := integral_Ioi_of_hasDerivAt_of_tendsto hcont
    (fun x hx => hasDerivAt_mix_parts_three b x hx) (integrableOn_parts_three b) htend
  rw [hres]
  simp

theorem mix_split_one (b : ℝ) :
    ∫ x in Ioi (0:ℝ),
      (1 - 2 * x ^ 2 + 2 * (b ^ 2 / x ^ 2)) * Real.exp (-x ^ 2 - b ^ 2 / x ^ 2)
    = (∫ x in Ioi (0:ℝ), Real.exp (-x ^ 2 - b ^ 2 / x ^ 2))
      - 2 * (∫ x in Ioi (0:ℝ), x ^ 2 * Real.exp (-x ^ 2 - b ^ 2 / x ^ 2))
      + 2 * (∫ x in Ioi (0:ℝ), b ^ 2 / x ^ 2 * Real.exp (-x ^ 2 - b ^ 2 / x ^ 2)) := by
  have h1 : ∫ x in Ioi (0:ℝ),
      (1 - 2 * x ^ 2 + 2 * (b ^ 2 / x ^ 2)) * Real.exp (-x ^ 2 - b ^ 2 / x ^ 2)
      = ∫ x in Ioi (0:ℝ),
        ((Real.exp (-x ^ 2 - b ^ 2 / x ^ 2)
          - 2 * (x ^ 2 * Real.exp (-x ^ 2 - b ^ 2 / x ^ 2)))
        + 2 * (b ^ 2 / x ^ 2 * Real.exp (-x ^ 2 - b ^ 2 / x ^ 2))) := by
    apply setIntegral_congr_fun measurableSet_Ioi
    intro x hx
    dsimp only
    ring
  have iA : IntegrableOn (fun x : ℝ =>
      Real.exp (-x ^ 2 - b ^ 2 / x ^ 2)
        - 2 * (x ^ 2 * Real.exp (-x ^ 2 - b ^ 2 / x ^ 2))) (Ioi 0) :=
    (integrableOn_mixExp b).sub ((integrableOn_mix 2 b).const_mul 2)
  rw [h1, integral_add iA ((integrableOn_inv_sq_mix b).const_mul 2),
    integral_sub (integrableOn_mixExp b) ((integrableOn_mix 2 b).const_mul 2),
    integral_mul_left, integral_mul_left]

theorem mix_split_three (b : ℝ) :
    ∫ x in Ioi (0:ℝ),
      (3 * x ^ 2 - 2 * x ^ 4 + 2 * b ^ 2) * Real.exp (-x ^ 2 - b ^ 2 / x ^ 2)
    = 3 * (∫ x in Ioi (0:ℝ), x ^ 2 * Real.exp (-x ^ 2 - b ^ 2 / x ^ 2))
      - 2 * (∫ x in Ioi (0:ℝ), x ^ 4 * Real.exp (-x ^ 2 - b ^ 2 / x ^ 2))
      + 2 * b ^ 2 * (∫ x in Ioi (0:ℝ), Real.exp (-x ^ 2 - b ^ 2 / x ^ 2)) := by
  have h1 : ∫ x in Ioi (0:ℝ),
      (3 * x ^ 2 - 2 * x ^ 4 + 2 * b ^ 2) * Real.exp (-x ^ 2 - b ^ 2 / x ^ 2)
      = ∫ x in Ioi (0:ℝ),
        ((3 * (x ^ 2 * Real.exp (-x ^ 2 - b ^ 2 / x ^ 2))
          - 2 * (x ^ 4 * Real.exp (-x ^ 2 - b ^ 2 / x ^ 2)))
        + 2 * b ^ 2 * Real.exp (-x ^ 2 - b ^ 2 / x ^ 2)) := by
    apply setIntegral_congr_fun measurableSet_Ioi
    intro x hx
    dsimp only
    ring
  have iA : IntegrableOn (fun x : ℝ =>
      3 * (x ^ 2 * Real.exp (-x ^ 2 - b ^ 2 / x ^ 2))
        - 2 * (x ^ 4 * Real.exp (-x ^ 2 - b ^ 2 / x ^ 2))) (Ioi 0) :=
    ((integrableOn_mix 2 b).const_mul 3).sub ((integrableOn_mix 4 b).const_mul 2)
  rw [h1, integral_add iA ((integrableOn_mixExp b).const_mul (2 * b ^ 2)),
    integral_sub ((integrableOn_mix 2 b).const_mul 3) ((integrableOn_mix 4 b).const_mul 2),
    integral_mul_left, integral_mul_left, integral_mul_left]

theorem mix_reflect_id (b : ℝ) (hb : 0 ≤ b) :
    ∫ x in Ioi (0:ℝ), b ^ 2 / x ^ 2 * Real.exp (-x ^ 2 - b ^ 2 / x ^ 2)
      = b * ∫ x in Ioi (0:ℝ), Real.exp (-x ^ 2 - b ^ 2 / x ^ 2) := by
  rcases eq_or_lt_of_le hb with hb0 | hbpos
  · have hz : ∀ x ∈ Ioi (0:ℝ),
        b ^ 2 / x ^ 2 * Real.exp (-x ^ 2 - b ^ 2 / x ^ 2) = 0 := by
      intro x hx
      rw [← hb0]
      norm_num
    rw [setIntegral_congr_fun measurableSet_Ioi hz, ← hb0]
    simp
  · have h := subst_reflect b hbpos (fun x => Real.exp (-x ^ 2 - b ^ 2 / x ^ 2))
    have h2 : ∫ x in Ioi (0:ℝ),
        b / x ^ 2 * Real.exp (-(b / x) ^ 2 - b ^ 2 / (b / x) ^ 2)
        = ∫ x in Ioi (0:ℝ),
          b⁻¹ * (b ^ 2 / x ^ 2 * Real.exp (-x ^ 2 - b ^ 2 / x ^ 2)) := by
      apply setIntegral_congr_fun measurableSet_Ioi
      intro x hx
      have hx0 : (0:ℝ) < x := hx
      have hb' : b ≠ 0 := ne_of_gt hbpos
      have hx' : x ≠ 0 := ne_of_gt hx0
      have e1 : b ^ 2 / (b / x) ^ 2 = x ^ 2 := by
        rw [div_pow]
        field_simp
      have e2 : (b / x) ^ 2 = b ^ 2 / x ^ 2 := by rw [div_pow]
      dsimp only
      rw [e1, e2]
      field_simp
      ring_nf
    rw [h2, integral_mul_left] at h
    rw [h, ← mul_assoc, mul_inv_cancel₀ (ne_of_gt hbpos), one_mul]

theorem mix_integral_two (b : ℝ) (hb : 0 ≤ b) :
    ∫ x in Ioi (0:ℝ), x ^ 2 * Real.exp (-x ^ 2 - b ^ 2 / x ^ 2)
      = Real.sqrt Real.pi * (1 + 2 * b) / 4 * Real.exp (-(2 * b)) := by
  have hparts := mix_parts_one b
  rw [mix_split_one b, mix_reflect_id b hb, mix_integral_zero b hb] at hparts
  linear_combination (-1/2 : ℝ) * hparts

theorem mix_integral_four (b : ℝ) (hb : 0 ≤ b) :
    ∫ x in Ioi (0:ℝ), x ^ 4 * Real.exp (-x ^ 2 - b ^ 2 / x ^ 2)
      = Real.sqrt Real.pi * (3 + 6 * b + 4 * b ^ 2) / 8 * Real.exp (-(2 * b)) := by
  have hparts := mix_parts_three b
  rw [mix_split_three b, mix_integral_two b hb, mix_integral_zero b hb] at hparts
  linear_combination (-1/2 : ℝ) * hparts

theorem mix_weight_eq (co l q x : ℝ) (hco : 0 ≤ co * q) :
    Real.exp (-x ^ 2) * Real.exp (-(co / (4 * l ^ 2) / x ^ 2) * q)
      = Real.exp (-x ^ 2 - (Real.sqrt (co * q) / (2 * l)) ^ 2 / x ^ 2) := by
  rw [← Real.exp_add]
  congr 1
  rw [div_pow, Real.sq_sqrt hco]
  ring

theorem integrableOn_mix_weight_zero (C co l q : ℝ) (hco : 0 ≤ co * q) :
    IntegrableOn (fun x : ℝ =>
      C * Real.exp (-x ^ 2) * Real.exp (-(co / (4 * l ^ 2) / x ^ 2) * q)) (Ioi 0) := by
  have h : IntegrableOn (fun x : ℝ =>
      C * Real.exp (-x ^ 2 - (Real.sqrt (co * q) / (2 * l)) ^ 2 / x ^ 2)) (Ioi 0) :=
    (integrableOn_mixExp _).const_mul C
  refine h.congr_fun (fun x hx => ?_) measurableSet_Ioi
  rw [mul_assoc, mix_weight_eq co l q x hco]

theorem integrableOn_mix_weight (C co l q : ℝ) (k : ℕ) (hco : 0 ≤ co * q) :
    IntegrableOn (fun x : ℝ =>
      C * (x ^ k * Real.exp (-x ^ 2)) * Real.exp (-(co / (4 * l ^ 2) / x ^ 2) * q))
      (Ioi 0) := by
  have h : IntegrableOn (fun x : ℝ =>
      C * (x ^ k * Real.exp (-x ^ 2 - (Real.sqrt (co * q) / (2 * l)) ^ 2 / x ^ 2)))
      (Ioi 0) :=
    (integrableOn_mix k _).const_mul C
  refine h.congr_fun (fun x hx => ?_) measurableSet_Ioi
  rw [mul_assoc, mul_assoc, mix_weight_eq co l q x hco]

theorem exp_mixture (l q : ℝ) (hl : 0 < l) (hq : 0 ≤ q) :
    Real.exp (-(Real.sqrt q / l)) = ∫ x in Ioi (0:ℝ),
      2 / Real.sqrt Real.pi * Real.exp (-x ^ 2)
        * Real.exp (-(1 / (4 * l ^ 2) / x ^ 2) * q) := by
  have hco : (0:ℝ) ≤ 1 * q := by linarith
  have hb : 0 ≤ Real.sqrt (1 * q) / (2 * l) :=
    div_nonneg (Real.sqrt_nonneg _) (by linarith)
  have hM := mix_integral_zero (Real.sqrt (1 * q) / (2 * l)) hb
  have hRHS : ∫ x in Ioi (0:ℝ),
      2 / Real.sqrt Real.pi * Real.exp (-x ^ 2)
        * Real.exp (-(1 / (4 * l ^ 2) / x ^ 2) * q)
      = 2 / Real.sqrt Real.pi * ∫ x in Ioi (0:ℝ),
          Real.exp (-x ^ 2 - (Real.sqrt (1 * q) / (2 * l)) ^ 2 / x ^ 2) := by
    rw [← integral_mul_left]
    apply setIntegral_congr_fun measurableSet_Ioi
    intro x hx
    dsimp only
    rw [mul_assoc, mix_weight_eq 1 l q x hco]
  rw [hRHS, hM]
  have h2b : 2 * (Real.sqrt (1 * q) / (2 * l)) = Real.sqrt q / l := by
    rw [one_mul]
    ring
  rw [h2b]
  have hpi : Real.sqrt Real.pi ≠ 0 := ne_of_gt (Real.sqrt_pos.mpr Real.pi_pos)
  field_simp
  ring

theorem matern32_mixture (l q : ℝ) (hl : 0 < l) (hq : 0 ≤ q) :
    (1 + Real.sqrt 3 * Real.sqrt q / l)
        * Real.exp (-(Real.sqrt 3 * Real.sqrt q / l))
      = ∫ x in Ioi (0:ℝ),
          4 / Real.sqrt Real.pi * (x ^ 2 * Real.exp (-x ^ 2))
            * Real.exp (-(3 / (4 * l ^ 2) / x ^ 2) * q) := by
  have hco : (0:ℝ) ≤ 3 * q := by linarith
  have hb : 0 ≤ Real.sqrt (3 * q) / (2 * l) :=
    div_nonneg (Real.sqrt_nonneg _) (by linarith)
  have hM := mix_integral_two (Real.sqrt (3 * q) / (2 * l)) hb
  have hRHS : ∫ x in Ioi (0:ℝ),
      4 / Real.sqrt Real.pi * (x ^ 2 * Real.exp (-x ^ 2))
        * Real.exp (-(3 / (4 * l ^ 2) / x ^ 2) * q)
      = 4 / Real.sqrt Real.pi * ∫ x in Ioi (0:ℝ),
          x ^ 2 * Real.exp (-x ^ 2 - (Real.sqrt (3 * q) / (2 * l)) ^ 2 / x ^ 2) := by
    rw [← integral_mul_left]
    apply setIntegral_congr_fun measurableSet_Ioi
    intro x hx
    dsimp only
    rw [mul_assoc, mul_assoc, mix_weight_eq 3 l q x hco]
  rw [hRHS, hM]
  have hsplit : Real.sqrt (3 * q) = Real.sqrt 3 * Real.sqrt q :=
    Real.sqrt_mul (by norm_num) q
  have h2b : 2 * (Real.sqrt (3 * q) / (2 * l)) = Real.sqrt 3 * Real.sqrt q / l := by
    rw [hsplit]
    ring
  rw [h2b]
  have hpi : Real.sqrt Real.pi ≠ 0 := ne_of_gt (Real.sqrt_pos.mpr Real.pi_pos)
  field_simp
  ring

theorem matern52_mixture (l q : ℝ) (hl : 0 < l) (hq : 0 ≤ q) :
    (1 + Real.sqrt 5 * Real.sqrt q / l + 5 * q / (3 * l ^ 2))
        * Real.exp (-(Real.sqrt 5 * Real.sqrt q / l))
      = ∫ x in Ioi (0:ℝ),
          8 / (3 * Real.sqrt Real.pi) * (x ^ 4 * Real.exp (-x ^ 2))
            * Real.exp (-(5 / (4 * l ^ 2) / x ^ 2) * q) := by
  have hco : (0:ℝ) ≤ 5 * q := by linarith
  have hb : 0 ≤ Real.sqrt (5 * q) / (2 * l) :=
    div_nonneg (Real.sqrt_nonneg _) (by linarith)
  have hM := mix_integral_four (Real.sqrt (5 * q) / (2 * l)) hb
  have hRHS : ∫ x in Ioi (0:ℝ),
      8 / (3 * Real.sqrt Real.pi) * (x ^ 4 * Real.exp (-x ^ 2))
        * Real.exp (-(5 / (4 * l ^ 2) / x ^ 2) * q)
      = 8 / (3 * Real.sqrt Real.pi) * ∫ x in Ioi (0:ℝ),
          x ^ 4 * Real.exp (-x ^ 2 - (Real.sqrt (5 * q) / (2 * l)) ^ 2 / x ^ 2) := by
    rw [← integral_mul_left]
    apply setIntegral_congr_fun measurableSet_Ioi
    intro x hx
    dsimp only
    rw [mul_assoc, mul_assoc, mix_weight_eq 5 l q x hco]
  rw [hRHS, hM]
  have hsplit : Real.sqrt (5 * q) = Real.sqrt 5 * Real.sqrt q :=
    Real.sqrt_mul (by norm_num) q
  have hb2 : (Real.sqrt (5 * q) / (2 * l)) ^ 2 = 5 * q / (4 * l ^ 2) := by
    rw [div_pow, Real.sq_sqrt hco]
    congr 1
    ring
  have h2b : 2 * (Real.sqrt (5 * q) / (2 * l)) = Real.sqrt 5 * Real.sqrt q / l := by
    rw [hsplit]
    ring
  rw [hb2, h2b]
  have hpi : Real.sqrt Real.pi ≠ 0 := ne_of_gt (Real.sqrt_pos.mpr Real.pi_pos)
  field_simp
  ring

theorem ratquad_mixture (a u : ℝ) (ha : 0 < a) (hu : 0 ≤ u) :
    (1 + u) ^ (-a) = (Real.Gamma a)⁻¹ * ∫ t in Ioi (0:ℝ),
      t ^ (a - 1) * Real.exp (-t) * Real.exp (-(t * u)) := by
  have hb : (0:ℝ) < 1 + u := by linarith
  have h := integral_rpow_mul_exp_neg_mul_rpow (p := 1) (q := a - 1) (b := 1 + u)
    one_pos (by linarith) hb
  have hcong : ∫ x in Ioi (0:ℝ), x ^ (a - 1) * Real.exp (-(1 + u) * x ^ (1:ℝ))
      = ∫ t in Ioi (0:ℝ), t ^ (a - 1) * Real.exp (-t) * Real.exp (-(t * u)) := by
    apply setIntegral_congr_fun measurableSet_Ioi
    intro x hx
    dsimp only
    rw [Real.rpow_one, mul_assoc, ← Real.exp_add]
    congr 2
    ring
  rw [hcong] at h
  rw [h]
  have hexp : -(a - 1 + 1) / 1 = -a := by ring
  rw [hexp]
  have hG : Real.Gamma a ≠ 0 := ne_of_gt (Real.Gamma_pos_of_pos ha)
  field_simp

theorem integrableOn_ratquad_weight (a c : ℝ) (ha : 0 < a) (hc : 0 ≤ c) :
    IntegrableOn (fun t : ℝ =>
      t ^ (a - 1) * Real.exp (-t) * Real.exp (-(t * c))) (Ioi 0) := by
  have hb : (0:ℝ) < 1 + c := by linarith
  have h := integrableOn_rpow_mul_exp_neg_mul_rpow (s := a - 1) (p := 1)
    (b := 1 + c) (by linarith) le_rfl hb
  refine h.congr_fun (fun x hx => ?_) measurableSet_Ioi
  have hsplit : Real.exp (-(1 + c) * x ^ (1:ℝ))
      = Real.exp (-x) * Real.exp (-(x * c)) := by
    rw [← Real.exp_add, Real.rpow_one]
    congr 1
    ring
  rw [hsplit, ← mul_assoc]

theorem quadForm_gauss_nonneg {ι' : Type} [Fintype ι'] {m : ℕ} (β : ℝ) (hβ : 0 ≤ β)
    (p : ι' → Fin m → ℝ) (c : ι' → ℝ) :
    0 ≤ ∑ i, ∑ j, c i * Real.exp (-β * ∑ t, (p i t - p j t) ^ 2) * c j := by
  classical
  have h2β : Real.sqrt (2 * β) * Real.sqrt (2 * β) = 2 * β :=
    Real.mul_self_sqrt (by linarith)
  have hgram : ∀ i j : ι',
      gramOf (fun a t => Real.sqrt (2 * β) * p a t) i j
        = 2 * β * ∑ t, p i t * p j t := by
    intro i j
    show (∑ t, (Real.sqrt (2 * β) * p i t) * (Real.sqrt (2 * β) * p j t)) = _
    rw [Finset.mul_sum]
    refine Finset.sum_congr rfl fun t _ => ?_
    conv_rhs => rw [← h2β]
    ring
  have hentry : ∀ i j : ι', Real.exp (-β * ∑ t, (p i t - p j t) ^ 2)
      = Real.exp (-β * ∑ t, p i t ^ 2)
        * Real.exp (gramOf (fun a t => Real.sqrt (2 * β) * p a t) i j)
        * Real.exp (-β * ∑ t, p j t ^ 2) := by
    intro i j
    have hexpand : (∑ t, (p i t - p j t) ^ 2) =
        (∑ t, p i t ^ 2) + (∑ t, p j t ^ 2) - 2 * ∑ t, p i t * p j t := by
      rw [Finset.mul_sum, ← Finset.sum_add_distrib, ← Finset.sum_sub_distrib]
      exact Finset.sum_congr rfl fun t _ => by ring
    have hsplit : -β * ∑ t, (p i t - p j t) ^ 2
        = -β * (∑ t, p i t ^ 2) + 2 * β * (∑ t, p i t * p j t)
          + -β * (∑ t, p j t ^ 2) := by
      rw [hexpand]
      ring
    rw [hsplit, Real.exp_add, Real.exp_add, hgram i j]
  have htotal : ∑ i, ∑ j, c i * Real.exp (-β * ∑ t, (p i t - p j t) ^ 2) * c j
      = ∑ i, ∑ j, (c i * Real.exp (-β * ∑ t, p i t ^ 2))
          * Real.exp (gramOf (fun a t => Real.sqrt (2 * β) * p a t) i j)
          * (c j * Real.exp (-β * ∑ t, p j t ^ 2)) := by
    refine Finset.sum_congr rfl fun i _ => Finset.sum_congr rfl fun j _ => ?_
    rw [hentry i j]
    ring
  rw [htotal]
  exact quadForm_exp_gram_nonneg (fun a t => Real.sqrt (2 * β) * p a t)
    (fun i => c i * Real.exp (-β * ∑ t, p i t ^ 2))

theorem quadForm_gaussMix_nonneg {ι' : Type} [Fintype ι'] {m : ℕ}
    (p : ι' → Fin m → ℝ) (c : ι' → ℝ) (w β : ℝ → ℝ)
    (hw : ∀ s ∈ Ioi (0:ℝ), 0 ≤ w s) (hβ : ∀ s ∈ Ioi (0:ℝ), 0 ≤ β s)
    (hint : ∀ q : ℝ, 0 ≤ q →
      IntegrableOn (fun s : ℝ => w s * Real.exp (-β s * q)) (Ioi 0)) :
    0 ≤ ∑ i, ∑ j, c i * (∫ s in Ioi (0:ℝ),
        w s * Real.exp (-β s * ∑ t, (p i t - p j t) ^ 2)) * c j := by
  have hqnn : ∀ i j : ι', 0 ≤ ∑ t, (p i t - p j t) ^ 2 :=
    fun i j => Finset.sum_nonneg fun t _ => sq_nonneg _
  have hIint : ∀ i j : ι', IntegrableOn (fun s : ℝ =>
      c i * c j * (w s * Real.exp (-β s * ∑ t, (p i t - p j t) ^ 2))) (Ioi 0) :=
    fun i j => (hint _ (hqnn i j)).const_mul _
  have hstep1 : ∀ i j : ι', c i * (∫ s in Ioi (0:ℝ),
        w s * Real.exp (-β s * ∑ t, (p i t - p j t) ^ 2)) * c j
      = ∫ s in Ioi (0:ℝ),
          c i * c j * (w s * Real.exp (-β s * ∑ t, (p i t - p j t) ^ 2)) := by
    intro i j
    rw [integral_mul_left]
    ring
  have hrow : ∀ i : ι', ∑ j, c i * (∫ s in Ioi (0:ℝ),
        w s * Real.exp (-β s * ∑ t, (p i t - p j t) ^ 2)) * c j
      = ∫ s in Ioi (0:ℝ), ∑ j,
          c i * c j * (w s * Real.exp (-β s * ∑ t, (p i t - p j t) ^ 2)) := by
    intro i
    rw [Finset.sum_congr rfl fun j _ => hstep1 i j]
    exact (integral_finset_sum Finset.univ fun j _ => hIint i j).symm
  rw [Finset.sum_congr rfl fun i _ => hrow i,
    ← integral_finset_sum Finset.univ fun i _ =>
      integrable_finset_sum Finset.univ fun j _ => hIint i j]
  apply setIntegral_nonneg measurableSet_Ioi
  intro s hs
  have hfactor : ∑ i, ∑ j,
      c i * c j * (w s * Real.exp (-β s * ∑ t, (p i t - p j t) ^ 2))
      = w s * ∑ i, ∑ j,
          c i * Real.exp (-β s * ∑ t, (p i t - p j t) ^ 2) * c j := by
    rw [Finset.mul_sum]
    refine Finset.sum_congr rfl fun i _ => ?_
    rw [Finset.mul_sum]
    exact Finset.sum_congr rfl fun j _ => by ring
  rw [hfactor]
  exact mul_nonneg (hw s hs) (quadForm_gauss_nonneg (β s) (hβ s hs) p c)

theorem stdperiodic_gram {ι' : Type} [Fintype ι'] {m : ℕ} (l T : ℝ)
    (p : ι' → Fin m → ℝ) (i j : ι') :
    gramOf (fun a (tb : Fin m × Bool) =>
      cond tb.2 (Real.sin (2 * Real.pi * p a tb.1 / T))
        (Real.cos (2 * Real.pi * p a tb.1 / T)) / (2 * l)) i j
    = ∑ t, (Real.cos (2 * Real.pi * p i t / T) * Real.cos (2 * Real.pi * p j t / T)
        + Real.sin (2 * Real.pi * p i t / T) * Real.sin (2 * Real.pi * p j t / T))
        / (4 * l ^ 2) := by
  unfold gramOf
  rw [Fintype.sum_prod_type]
  refine Finset.sum_congr rfl fun t _ => ?_
  rw [Fintype.sum_bool]
  simp only [cond_true, cond_false]
  ring

theorem stdperiodic_exponent {ι' : Type} [Fintype ι'] {m : ℕ} (l T : ℝ)
    (p : ι' → Fin m → ℝ) (i j : ι') :
    -(∑ t, Real.sin (Real.pi * (p i t - p j t) / T) ^ 2) / (2 * l ^ 2)
    = -(m : ℝ) / (4 * l ^ 2) + gramOf (fun a (tb : Fin m × Bool) =>
        cond tb.2 (Real.sin (2 * Real.pi * p a tb.1 / T))
          (Real.cos (2 * Real.pi * p a tb.1 / T)) / (2 * l)) i j := by
  rw [stdperiodic_gram l T p i j]
  have hsum : (∑ t, Real.sin (Real.pi * (p i t - p j t) / T) ^ 2)
      = ∑ t, (1 / 2
        - (Real.cos (2 * Real.pi * p i t / T) * Real.cos (2 * Real.pi * p j t / T)
          + Real.sin (2 * Real.pi * p i t / T) * Real.sin (2 * Real.pi * p j t / T))
          / 2) := by
    refine Finset.sum_congr rfl fun t _ => ?_
    have h2 : 2 * (Real.pi * (p i t - p j t) / T)
        = 2 * Real.pi * p i t / T - 2 * Real.pi * p j t / T := by ring
    rw [Real.sin_sq_eq_half_sub, h2, Real.cos_sub]
  rw [hsum, Finset.sum_sub_distrib, Finset.sum_const, Finset.card_univ,
    Fintype.card_fin, ← Finset.sum_div, ← Finset.sum_div, nsmul_eq_mul]
  ring

theorem poly_gram {ι' : Type} [Fintype ι'] {m : ℕ} (s c : ℝ) (hs : 0 ≤ s) (hc : 0 ≤ c)
    (p : ι' → Fin m → ℝ) (i j : ι') :
    gramOf (fun a => Sum.elim (fun t : Fin m => Real.sqrt s * p a t)
      (fun _ : Unit => Real.sqrt c)) i j = s * (∑ t, p i t * p j t) + c := by
  have hsq : Real.sqrt s * Real.sqrt s = s := Real.mul_self_sqrt hs
  have hcq : Real.sqrt c * Real.sqrt c = c := Real.mul_self_sqrt hc
  unfold gramOf
  rw [Fintype.sum_sum_type]
  congr 1
  · rw [Finset.mul_sum]
    refine Finset.sum_congr rfl fun t _ => ?_
    simp only [Sum.elim_inl]
    conv_rhs => rw [← hsq]
    ring
  · rw [Fintype.sum_unique]
    simp only [Sum.elim_inr]
    exact hcq

theorem evaluate_symm {d : ℕ} (k : Kern d) (x y : Fin d → ℝ) :
    k.evaluate x y = k.evaluate y x := by
  induction k with
  | rbf v l d =>
    unfold Kern.evaluate
    have hs : (∑ t, (x t - y t) ^ 2) = ∑ t, (y t - x t) ^ 2 :=
      Finset.sum_congr rfl fun t _ => by ring
    rw [hs]
  | exponential v l d =>
    unfold Kern.evaluate
    have hs : (∑ t, (x t - y t) ^ 2) = ∑ t, (y t - x t) ^ 2 :=
      Finset.sum_congr rfl fun t _ => by ring
    rw [hs]
  | matern32 v l d =>
    unfold Kern.evaluate
    have hs : (∑ t, (x t - y t) ^ 2) = ∑ t, (y t - x t) ^ 2 :=
      Finset.sum_congr rfl fun t _ => by ring
    rw [hs]
  | matern52 v l d =>
    unfold Kern.evaluate
    have hs : (∑ t, (x t - y t) ^ 2) = ∑ t, (y t - x t) ^ 2 :=
      Finset.sum_congr rfl fun t _ => by ring
    rw [hs]
  | ratquad v l a d =>
    unfold Kern.evaluate
    have hs : (∑ t, (x t - y t) ^ 2) = ∑ t, (y t - x t) ^ 2 :=
      Finset.sum_congr rfl fun t _ => by ring
    rw [hs]
  | stdperiodic v l T d =>
    unfold Kern.evaluate
    have hs : (∑ t, Real.sin (Real.pi * (x t - y t) / T) ^ 2)
        = ∑ t, Real.sin (Real.pi * (y t - x t) / T) ^ 2 := by
      refine Finset.sum_congr rfl fun t _ => ?_
      rw [show Real.pi * (x t - y t) / T = -(Real.pi * (y t - x t) / T) from by ring,
        Real.sin_neg, neg_sq]
    rw [hs]
  | linear w =>
    unfold Kern.evaluate
    exact Finset.sum_congr rfl fun t _ => by ring
  | poly v s c n d =>
    unfold Kern.evaluate
    have hs : (∑ t, x t * y t) = ∑ t, y t * x t :=
      Finset.sum_congr rfl fun t _ => mul_comm _ _
    rw [hs]
  | white v d =>
    unfold Kern.evaluate
    exact if_congr eq_comm rfl rfl
  | sum k1 k2 ih1 ih2 =>
    unfold Kern.evaluate
    rw [ih1, ih2]
  | prod k1 k2 ih1 ih2 =>
    unfold Kern.evaluate
    rw [ih1, ih2]
  | masked k sel ih =>
    unfold Kern.evaluate
    exact ih _ _

theorem gram_quadForm_nonneg {d : ℕ} (k : Kern d) :
    k.valid → ∀ {ι' : Type} [Fintype ι'] (p : ι' → Fin d → ℝ) (x : ι' → ℝ),
      0 ≤ quadForm (k.K p p) x := by
  induction k with
  | rbf v l d =>
    intro hk ι' inst p x
    classical
    have hv : Real.sqrt v * Real.sqrt v = v := Real.mul_self_sqrt hk.1.le
    have hgram : ∀ i j : ι', gramOf (fun a t => p a t / l) i j =
        (∑ t, p i t * p j t) / l ^ 2 := by
      intro i j
      show (∑ t, (p i t / l) * (p j t / l)) = (∑ t, p i t * p j t) / l ^ 2
      rw [Finset.sum_div]
      refine Finset.sum_congr rfl fun t _ => ?_
      rw [div_mul_div_comm, ← sq]
    have hentry : ∀ i j : ι', (Kern.rbf v l d).K p p i j =
        (Real.sqrt v * Real.exp (-(∑ t, (p i t) ^ 2) / (2 * l ^ 2))) *
          Real.exp (gramOf (fun a t => p a t / l) i j) *
          (Real.sqrt v * Real.exp (-(∑ t, (p j t) ^ 2) / (2 * l ^ 2))) := by
      intro i j
      show v * Real.exp (-(∑ t, (p i t - p j t) ^ 2) / (2 * l ^ 2)) = _
      have hexpand : (∑ t, (p i t - p j t) ^ 2) =
          (∑ t, (p i t) ^ 2) + (∑ t, (p j t) ^ 2) - 2 * ∑ t, p i t * p j t := by
        rw [Finset.mul_sum, ← Finset.sum_add_distrib, ← Finset.sum_sub_distrib]
        exact Finset.sum_congr rfl fun t _ => by ring
      have hsplit : -(∑ t, (p i t - p j t) ^ 2) / (2 * l ^ 2) =
          -(∑ t, (p i t) ^ 2) / (2 * l ^ 2) + (∑ t, p i t * p j t) / l ^ 2 +
            -(∑ t, (p j t) ^ 2) / (2 * l ^ 2) := by
        rw [hexpand]
        have h2 : (2 : ℝ) ≠ 0 := two_ne_zero
        calc -((∑ t, (p i t) ^ 2) + (∑ t, (p j t) ^ 2) - 2 * ∑ t, p i t * p j t) /
              (2 * l ^ 2)
            = (-(∑ t, (p i t) ^ 2) + 2 * (∑ t, p i t * p j t) +
                -(∑ t, (p j t) ^ 2)) / (2 * l ^ 2) := by
              rw [show -((∑ t, (p i t) ^ 2) + (∑ t, (p j t) ^ 2) -
                2 * ∑ t, p i t * p j t) =
               -(∑ t, (p i t) ^ 2) + 2 * (∑ t, p i t * p j t) +
                -(∑ t, (p j t) ^ 2) from by ring]
          _ = -(∑ t, (p i t) ^ 2) / (2 * l ^ 2) +
                (2 * (∑ t, p i t * p j t)) / (2 * l ^ 2) +
                -(∑ t, (p j t) ^ 2) / (2 * l ^ 2) := by
              rw [← div_add_div_same, ← div_add_div_same]
          _ = -(∑ t, (p i t) ^ 2) / (2 * l ^ 2) + (∑ t, p i t * p j t) / l ^ 2 +
                -(∑ t, (p j t) ^ 2) / (2 * l ^ 2) := by
              rw [mul_div_mul_left (∑ t, p i t * p j t) (l ^ 2) h2]
      rw [hsplit, Real.exp_add, Real.exp_add, hgram i j]
      conv_lhs => rw [← hv]
      ring
    have heq : quadForm ((Kern.rbf v l d).K p p) x =
        ∑ i, ∑ j,
          (x i * (Real.sqrt v * Real.exp (-(∑ t, (p i t) ^ 2) / (2 * l ^ 2)))) *
          Real.exp (gramOf (fun a t => p a t / l) i j) *
          (x j * (Real.sqrt v * Real.exp (-(∑ t, (p j t) ^ 2) / (2 * l ^ 2)))) := by
      unfold quadForm
      exact Finset.sum_congr rfl fun i _ => Finset.sum_congr rfl fun j _ => by
        rw [hentry i j]; ring
    rw [heq]
    exact quadForm_exp_gram_nonneg (fun a t => p a t / l)
      (fun i => x i * (Real.sqrt v * Real.exp (-(∑ t, (p i t) ^ 2) / (2 * l ^ 2))))
  | exponential v l d =>
    intro hk ι' inst p x
    have hq : ∀ i j : ι', 0 ≤ ∑ t, (p i t - p j t) ^ 2 :=
      fun i j => Finset.sum_nonneg fun t _ => sq_nonneg _
    have hentry : ∀ i j : ι', (Kern.exponential v l d).K p p i j
        = v * ∫ s in Ioi (0:ℝ),
            2 / Real.sqrt Real.pi * Real.exp (-s ^ 2)
              * Real.exp (-(1 / (4 * l ^ 2) / s ^ 2) * ∑ t, (p i t - p j t) ^ 2) := by
      intro i j
      show v * Real.exp (-(Real.sqrt (∑ t, (p i t - p j t) ^ 2) / l)) = _
      rw [exp_mixture l (∑ t, (p i t - p j t) ^ 2) hk.2 (hq i j)]
    have hquad : quadForm ((Kern.exponential v l d).K p p) x
        = v * ∑ i, ∑ j, x i * (∫ s in Ioi (0:ℝ),
            2 / Real.sqrt Real.pi * Real.exp (-s ^ 2)
              * Real.exp (-(1 / (4 * l ^ 2) / s ^ 2)
                  * ∑ t, (p i t - p j t) ^ 2)) * x j := by
      unfold quadForm
      rw [Finset.mul_sum]
      refine Finset.sum_congr rfl fun i _ => ?_
      rw [Finset.mul_sum]
      refine Finset.sum_congr rfl fun j _ => ?_
      rw [hentry i j]
      ring
    rw [hquad]
    refine mul_nonneg hk.1.le ?_
    refine quadForm_gaussMix_nonneg p x
      (fun s => 2 / Real.sqrt Real.pi * Real.exp (-s ^ 2))
      (fun s => 1 / (4 * l ^ 2) / s ^ 2)
      (fun s hs => by positivity) (fun s hs => by positivity) (fun q hq0 => ?_)
    exact integrableOn_mix_weight_zero (2 / Real.sqrt Real.pi) 1 l q (by linarith)
  | matern32 v l d =>
    intro hk ι' inst p x
    have hq : ∀ i j : ι', 0 ≤ ∑ t, (p i t - p j t) ^ 2 :=
      fun i j => Finset.sum_nonneg fun t _ => sq_nonneg _
    have hentry : ∀ i j : ι', (Kern.matern32 v l d).K p p i j
        = v * ∫ s in Ioi (0:ℝ),
            4 / Real.sqrt Real.pi * (s ^ 2 * Real.exp (-s ^ 2))
              * Real.exp (-(3 / (4 * l ^ 2) / s ^ 2) * ∑ t, (p i t - p j t) ^ 2) := by
      intro i j
      show v * (1 + Real.sqrt 3 * Real.sqrt (∑ t, (p i t - p j t) ^ 2) / l)
          * Real.exp (-(Real.sqrt 3 * Real.sqrt (∑ t, (p i t - p j t) ^ 2) / l)) = _
      rw [mul_assoc, matern32_mixture l (∑ t, (p i t - p j t) ^ 2) hk.2 (hq i j)]
    have hquad : quadForm ((Kern.matern32 v l d).K p p) x
        = v * ∑ i, ∑ j, x i * (∫ s in Ioi (0:ℝ),
            4 / Real.sqrt Real.pi * (s ^ 2 * Real.exp (-s ^ 2))
              * Real.exp (-(3 / (4 * l ^ 2) / s ^ 2)
                  * ∑ t, (p i t - p j t) ^ 2)) * x j := by
      unfold quadForm
      rw [Finset.mul_sum]
      refine Finset.sum_congr rfl fun i _ => ?_
      rw [Finset.mul_sum]
      refine Finset.sum_congr rfl fun j _ => ?_
      rw [hentry i j]
      ring
    rw [hquad]
    refine mul_nonneg hk.1.le ?_
    refine quadForm_gaussMix_nonneg p x
      (fun s => 4 / Real.sqrt Real.pi * (s ^ 2 * Real.exp (-s ^ 2)))
      (fun s => 3 / (4 * l ^ 2) / s ^ 2)
      (fun s hs => by positivity) (fun s hs => by positivity) (fun q hq0 => ?_)
    exact integrableOn_mix_weight (4 / Real.sqrt Real.pi) 3 l q 2 (by linarith)
  | matern52 v l d =>
    intro hk ι' inst p x
    have hq : ∀ i j : ι', 0 ≤ ∑ t, (p i t - p j t) ^ 2 :=
      fun i j => Finset.sum_nonneg fun t _ => sq_nonneg _
    have hentry : ∀ i j : ι', (Kern.matern52 v l d).K p p i j
        = v * ∫ s in Ioi (0:ℝ),
            8 / (3 * Real.sqrt Real.pi) * (s ^ 4 * Real.exp (-s ^ 2))
              * Real.exp (-(5 / (4 * l ^ 2) / s ^ 2) * ∑ t, (p i t - p j t) ^ 2) := by
      intro i j
      show v * (1 + Real.sqrt 5 * Real.sqrt (∑ t, (p i t - p j t) ^ 2) / l
            + 5 * (∑ t, (p i t - p j t) ^ 2) / (3 * l ^ 2))
          * Real.exp (-(Real.sqrt 5 * Real.sqrt (∑ t, (p i t - p j t) ^ 2) / l)) = _
      rw [mul_assoc, matern52_mixture l (∑ t, (p i t - p j t) ^ 2) hk.2 (hq i j)]
    have hquad : quadForm ((Kern.matern52 v l d).K p p) x
        = v * ∑ i, ∑ j, x i * (∫ s in Ioi (0:ℝ),
            8 / (3 * Real.sqrt Real.pi) * (s ^ 4 * Real.exp (-s ^ 2))
              * Real.exp (-(5 / (4 * l ^ 2) / s ^ 2)
                  * ∑ t, (p i t - p j t) ^ 2)) * x j := by
      unfold quadForm
      rw [Finset.mul_sum]
      refine Finset.sum_congr rfl fun i _ => ?_
      rw [Finset.mul_sum]
      refine Finset.sum_congr rfl fun j _ => ?_
      rw [hentry i j]
      ring
    rw [hquad]
    refine mul_nonneg hk.1.le ?_
    refine quadForm_gaussMix_nonneg p x
      (fun s => 8 / (3 * Real.sqrt Real.pi) * (s ^ 4 * Real.exp (-s ^ 2)))
      (fun s => 5 / (4 * l ^ 2) / s ^ 2)
      (fun s hs => by positivity) (fun s hs => by positivity) (fun q hq0 => ?_)
    exact integrableOn_mix_weight (8 / (3 * Real.sqrt Real.pi)) 5 l q 4 (by linarith)
  | ratquad v l a d =>
    intro hk ι' inst p x
    obtain ⟨hv, hl, ha⟩ := hk
    have hq : ∀ i j : ι', 0 ≤ ∑ t, (p i t - p j t) ^ 2 :=
      fun i j => Finset.sum_nonneg fun t _ => sq_nonneg _
    have hentry : ∀ i j : ι', (Kern.ratquad v l a d).K p p i j
        = v * (Real.Gamma a)⁻¹ * ∫ s in Ioi (0:ℝ),
            s ^ (a - 1) * Real.exp (-s)
              * Real.exp (-(s / (2 * a * l ^ 2)) * ∑ t, (p i t - p j t) ^ 2) := by
      intro i j
      show v * (1 + (∑ t, (p i t - p j t) ^ 2) / (2 * a * l ^ 2)) ^ (-a) = _
      rw [ratquad_mixture a ((∑ t, (p i t - p j t) ^ 2) / (2 * a * l ^ 2)) ha
        (div_nonneg (hq i j) (by positivity)), ← mul_assoc]
      congr 1
      apply setIntegral_congr_fun measurableSet_Ioi
      intro s hs
      dsimp only
      rw [show -(s * ((∑ t, (p i t - p j t) ^ 2) / (2 * a * l ^ 2)))
          = -(s / (2 * a * l ^ 2)) * ∑ t, (p i t - p j t) ^ 2 from by ring]
    have hquad : quadForm ((Kern.ratquad v l a d).K p p) x
        = v * (Real.Gamma a)⁻¹ * ∑ i, ∑ j, x i * (∫ s in Ioi (0:ℝ),
            s ^ (a - 1) * Real.exp (-s)
              * Real.exp (-(s / (2 * a * l ^ 2))
                  * ∑ t, (p i t - p j t) ^ 2)) * x j := by
      unfold quadForm
      rw [Finset.mul_sum]
      refine Finset.sum_congr rfl fun i _ => ?_
      rw [Finset.mul_sum]
      refine Finset.sum_congr rfl fun j _ => ?_
      rw [hentry i j]
      ring
    rw [hquad]
    refine mul_nonneg
      (mul_nonneg hv.le (inv_nonneg.mpr (Real.Gamma_pos_of_pos ha).le)) ?_
    refine quadForm_gaussMix_nonneg p x
      (fun s => s ^ (a - 1) * Real.exp (-s)) (fun s => s / (2 * a * l ^ 2))
      (fun s hs => mul_nonneg (Real.rpow_nonneg (le_of_lt hs) _) (Real.exp_pos _).le)
      (fun s hs => div_nonneg (le_of_lt hs) (by positivity)) (fun q hq0 => ?_)
    have h := integrableOn_ratquad_weight a (q / (2 * a * l ^ 2)) ha
      (div_nonneg hq0 (by positivity))
    refine h.congr_fun (fun s hs => ?_) measurableSet_Ioi
    rw [show -(s * (q / (2 * a * l ^ 2))) = -(s / (2 * a * l ^ 2)) * q from by ring]
  | stdperiodic v l T d =>
    intro hk ι' inst p x
    obtain ⟨hv, hl, hT⟩ := hk
    have hC : Real.sqrt (v * Real.exp (-(d : ℝ) / (4 * l ^ 2)))
        * Real.sqrt (v * Real.exp (-(d : ℝ) / (4 * l ^ 2)))
        = v * Real.exp (-(d : ℝ) / (4 * l ^ 2)) :=
      Real.mul_self_sqrt (mul_nonneg hv.le (Real.exp_pos _).le)
    have hentry : ∀ i j : ι', (Kern.stdperiodic v l T d).K p p i j
        = v * Real.exp (-(d : ℝ) / (4 * l ^ 2))
          * Real.exp (gramOf (fun a (tb : Fin d × Bool) =>
              cond tb.2 (Real.sin (2 * Real.pi * p a tb.1 / T))
                (Real.cos (2 * Real.pi * p a tb.1 / T)) / (2 * l)) i j) := by
      intro i j
      show v * Real.exp
          (-(∑ t, Real.sin (Real.pi * (p i t - p j t) / T) ^ 2) / (2 * l ^ 2)) = _
      rw [stdperiodic_exponent l T p i j, Real.exp_add, ← mul_assoc]
    have htotal : quadForm ((Kern.stdperiodic v l T d).K p p) x
        = ∑ i, ∑ j,
            (x i * Real.sqrt (v * Real.exp (-(d : ℝ) / (4 * l ^ 2))))
            * Real.exp (gramOf (fun a (tb : Fin d × Bool) =>
                cond tb.2 (Real.sin (2 * Real.pi * p a tb.1 / T))
                  (Real.cos (2 * Real.pi * p a tb.1 / T)) / (2 * l)) i j)
            * (x j * Real.sqrt (v * Real.exp (-(d : ℝ) / (4 * l ^ 2)))) := by
      unfold quadForm
      refine Finset.sum_congr rfl fun i _ => Finset.sum_congr rfl fun j _ => ?_
      rw [hentry i j]
      conv_lhs => rw [← hC]
      ring
    rw [htotal]
    exact quadForm_exp_gram_nonneg
      (fun a (tb : Fin d × Bool) =>
        cond tb.2 (Real.sin (2 * Real.pi * p a tb.1 / T))
          (Real.cos (2 * Real.pi * p a tb.1 / T)) / (2 * l))
      (fun i => x i * Real.sqrt (v * Real.exp (-(d : ℝ) / (4 * l ^ 2))))
  | linear w =>
    intro hk ι' inst p x
    have hentry : ∀ i j : ι', (Kern.linear w).K p p i j =
        gramOf (fun a t => Real.sqrt (w t) * p a t) i j := by
      intro i j
      show (∑ t, w t * (p i t * p j t)) =
        ∑ t, (Real.sqrt (w t) * p i t) * (Real.sqrt (w t) * p j t)
      refine Finset.sum_congr rfl fun t _ => ?_
      have hwt : Real.sqrt (w t) * Real.sqrt (w t) = w t :=
        Real.mul_self_sqrt (hk t).le
      conv_lhs => rw [← hwt]
      ring
    rw [Matrix.ext hentry]
    exact quadForm_gramOf_nonneg _ _
  | poly v s c n d =>
    intro hk ι' inst p x
    obtain ⟨hv, hs, hc⟩ := hk
    have hentry : ∀ i j : ι', (Kern.poly v s c n d).K p p i j
        = v * (gramOf (fun a => Sum.elim (fun t : Fin d => Real.sqrt s * p a t)
            (fun _ : Unit => Real.sqrt c)) i j) ^ n := by
      intro i j
      show v * (s * (∑ t, p i t * p j t) + c) ^ n = _
      rw [poly_gram s c hs.le hc p i j]
    have hquad : quadForm ((Kern.poly v s c n d).K p p) x
        = v * ∑ i, ∑ j, x i * (gramOf (fun a => Sum.elim
            (fun t : Fin d => Real.sqrt s * p a t)
            (fun _ : Unit => Real.sqrt c)) i j) ^ n * x j := by
      unfold quadForm
      rw [Finset.mul_sum]
      refine Finset.sum_congr rfl fun i _ => ?_
      rw [Finset.mul_sum]
      refine Finset.sum_congr rfl fun j _ => ?_
      rw [hentry i j]
      ring
    rw [hquad]
    exact mul_nonneg hv.le (quadForm_gram_pow_nonneg _ x n)
  | white v d =>
    intro hk ι' inst p x
    classical
    have hv : Real.sqrt v * Real.sqrt v = v := Real.mul_self_sqrt hk.le
    set S : Finset (Fin d → ℝ) := Finset.image p Finset.univ with hS
    have hentry : ∀ i j : ι', (Kern.white v d).K p p i j =
        gramOf (fun a (z : {z // z ∈ S}) =>
          if p a = z.1 then Real.sqrt v else 0) i j := by
      intro i j
      show (if p i = p j then v else 0) =
        ∑ z : {z // z ∈ S}, (if p i = z.1 then Real.sqrt v else 0) *
          (if p j = z.1 then Real.sqrt v else 0)
      by_cases h : p i = p j
      · rw [if_pos h]
        have hmem : p i ∈ S := hS ▸ Finset.mem_image_of_mem p (Finset.mem_univ i)
        rw [Finset.sum_eq_single (⟨p i, hmem⟩ : {z // z ∈ S})]
        · rw [if_pos rfl, if_pos h.symm, hv]
        · intro b _ hb
          rcases eq_or_ne (p i) b.1 with hbi | hbi
          · exact absurd (Subtype.ext hbi.symm) hb
          · rw [if_neg hbi, zero_mul]
        · intro habs
          exact absurd (Finset.mem_univ _) habs
      · rw [if_neg h]
        symm
        refine Finset.sum_eq_zero fun z _ => ?_
        rcases eq_or_ne (p i) z.1 with h1 | h1
        · have h2 : p j ≠ z.1 := fun h2 => h (h1.trans h2.symm)
          rw [if_neg h2, mul_zero]
        · rw [if_neg h1, zero_mul]
    rw [Matrix.ext hentry]
    exact quadForm_gramOf_nonneg _ _
  | sum k1 k2 ih1 ih2 =>
    intro hk ι' inst p x
    have hadd : quadForm ((Kern.sum k1 k2).K p p) x =
        quadForm (k1.K p p) x + quadForm (k2.K p p) x := by
      unfold quadForm
      rw [← Finset.sum_add_distrib]
      refine Finset.sum_congr rfl fun i _ => ?_
      rw [← Finset.sum_add_distrib]
      refine Finset.sum_congr rfl fun j _ => ?_
      show x i * (k1.K p p i j + k2.K p p i j) * x j = _
      ring
    rw [hadd]
    exact add_nonneg (ih1 hk.1 p x) (ih2 hk.2 p x)
  | prod k1 k2 ih1 ih2 =>
    intro hk ι' inst p x
    have hA : (k1.K p p).PosSemidef :=
      posSemidef_of_quadForm _ (fun i j => evaluate_symm k1 (p i) (p j))
        (fun w => ih1 hk.1 p w)
    have hC : (k2.K p p).PosSemidef :=
      posSemidef_of_quadForm _ (fun i j => evaluate_symm k2 (p i) (p j))
        (fun w => ih2 hk.2 p w)
    obtain ⟨B, hB⟩ := Matrix.posSemidef_iff_eq_transpose_mul_self.mp hA
    obtain ⟨D, hD⟩ := Matrix.posSemidef_iff_eq_transpose_mul_self.mp hC
    have hAe : ∀ i j : ι', k1.K p p i j = gramOf (fun a t => B t a) i j := by
      intro i j
      rw [hB]
      simp [Matrix.mul_apply, Matrix.conjTranspose_apply, gramOf]
    have hCe : ∀ i j : ι', k2.K p p i j = gramOf (fun a t => D t a) i j := by
      intro i j
      rw [hD]
      simp [Matrix.mul_apply, Matrix.conjTranspose_apply, gramOf]
    have hentry : ∀ i j : ι', (Kern.prod k1 k2).K p p i j =
        gramOf (fun a (kl : ι' × ι') => B kl.1 a * D kl.2 a) i j := by
      intro i j
      show k1.K p p i j * k2.K p p i j = _
      rw [hAe i j, hCe i j, ← gramOf_pair (fun a t => B t a) (fun a t => D t a) i j]
    rw [Matrix.ext hentry]
    exact quadForm_gramOf_nonneg _ _
  | masked k sel ih =>
    intro hk ι' inst p x
    exact ih hk (fun i => p i ∘ sel) x

omit [DecidableEq ι] in
theorem gram_posSemidef {d : ℕ} (k : Kern d) (hk : k.valid)
    (p : ι → Fin d → ℝ) : (k.K p p).PosSemidef :=
  posSemidef_of_quadForm _ (fun i j => evaluate_symm k (p i) (p j))
    (fun x => gram_quadForm_nonneg k hk p x)

theorem smul_one_posDef {ε : ℝ} (hε : 0 < ε) :
    (ε • (1 : Matrix ι ι ℝ)).PosDef := by
  constructor
  · ext i j
    simp [Matrix.conjTranspose_apply, Matrix.one_apply, Matrix.smul_apply]
    split <;> rename_i h
    · rw [if_pos h.symm]
    · rw [if_neg (Ne.symm h)]
  · intro x hx
    have hmv : (ε • (1 : Matrix ι ι ℝ)) *ᵥ x = ε • x := by
      rw [Matrix.smul_mulVec_assoc, Matrix.one_mulVec]
    rw [hmv]
    have hdot : star x ⬝ᵥ (ε • x) = ε * (x ⬝ᵥ x) := by
      simp [Matrix.dotProduct, Finset.mul_sum]
      exact Finset.sum_congr rfl fun i _ => by ring
    rw [hdot]
    refine mul_pos hε ?_
    have hnn : 0 ≤ x ⬝ᵥ x := Finset.sum_nonneg fun i _ => mul_self_nonneg _
    rcases hnn.lt_or_eq with hlt | heq
    · exact hlt
    · exact absurd (Matrix.dotProduct_self_eq_zero.mp heq.symm) hx

/-- C4: for every kernel with valid (positivity-constrained)
hyperparameters and every finite family of input points, the full-matrix
evaluation is symmetric positive semi-definite; consequently the
assembled covariance matrix with positive jitter is symmetric, its
Cholesky factorization succeeds, and it factors as Bᵗ B. -/
theorem kernel_psd_cholesky {d : ℕ} (k : Kern d) (p : ι → Fin d → ℝ)
    (ε : ℝ) (hk : k.valid) (hε : 0 < ε) :
    (k.K p p).IsSymm ∧ (k.K p p).PosSemidef ∧
    (k.K p p + ε • (1 : Matrix ι ι ℝ)).IsSymm ∧
    choleskySucceeds (k.K p p + ε • (1 : Matrix ι ι ℝ)) ∧
    ∃ B : Matrix ι ι ℝ, k.K p p + ε • (1 : Matrix ι ι ℝ) = Bᵀ * B := by
  have hpsd := gram_posSemidef k hk p
  have hpd : (k.K p p + ε • (1 : Matrix ι ι ℝ)).PosDef :=
    Matrix.PosDef.posSemidef_add hpsd (smul_one_posDef hε)
  refine ⟨?_, hpsd, ?_, hpd, ?_⟩
  · show (k.K p p)ᵀ = k.K p p
    rw [← Matrix.conjTranspose_eq_transpose_of_trivial]
    exact hpsd.1
  · show (k.K p p + ε • (1 : Matrix ι ι ℝ))ᵀ = k.K p p + ε • (1 : Matrix ι ι ℝ)
    rw [← Matrix.conjTranspose_eq_transpose_of_trivial]
    exact hpd.1
  · obtain ⟨B, hB⟩ := Matrix.posSemidef_iff_eq_transpose_mul_self.mp hpd.posSemidef
    refine ⟨B, ?_⟩
    rwa [Matrix.conjTranspose_eq_transpose_of_trivial] at hB

/-- Witness for C4: the white-noise kernel with unit variance on a single
point, jitter 1. -/
theorem kernel_psd_cholesky_witness :
    ((Kern.white 1 1).K (fun _ _ => (0 : ℝ)) (fun _ _ => (0 : ℝ)) :
      Matrix (Fin 1) (Fin 1) ℝ).PosSemidef ∧
    choleskySucceeds ((Kern.white 1 1).K (fun _ _ => (0 : ℝ)) (fun _ _ => (0 : ℝ)) +
      (1 : ℝ) • (1 : Matrix (Fin 1) (Fin 1) ℝ)) :=
  ⟨(kernel_psd_cholesky (Kern.white 1 1) (fun _ _ => (0 : ℝ)) 1
      one_pos one_pos).2.1,
   (kernel_psd_cholesky (Kern.white 1 1) (fun _ _ => (0 : ℝ)) 1
      one_pos one_pos).2.2.2.1⟩

theorem sum_split_at (i : ι) (f : ι → ℝ) :
    ∑ s, f s = f i + ∑ s : {j : ι // j ≠ i}, f s.1 := by
  rw [← Finset.add_sum_erase Finset.univ f (Finset.mem_univ i)]
  congr 1
  have h : ∀ x : ι, x ∈ Finset.univ.erase i ↔ x ≠ i := by
    intro x
    simp [Finset.mem_erase]
  rw [Finset.sum_subtype _ h f]

omit [Fintype ι] in
theorem covMatrix_symm_entries (m : GPR ι d) (a b : ι) :
    covMatrix m a b = covMatrix m b a := by
  unfold covMatrix
  rw [evaluate_symm]
  congr 1
  exact if_congr eq_comm rfl rfl

omit [Fintype ι] in
theorem covMatrix_transpose (m : GPR ι d) : (covMatrix m)ᵀ = covMatrix m :=
  Matrix.ext fun a b => (Matrix.transpose_apply _ _ _).trans (covMatrix_symm_entries m b a)

theorem covMatrix_inv_transpose (m : GPR ι d) :
    ((covMatrix m)⁻¹)ᵀ = (covMatrix m)⁻¹ := by
  rw [Matrix.transpose_nonsing_inv, covMatrix_transpose]

omit [Fintype ι] in
theorem covMatrix_dropPoint (m : GPR ι d) (i : ι) (s t : {j : ι // j ≠ i}) :
    covMatrix (dropPoint m i) s t = covMatrix m s.1 t.1 := by
  unfold covMatrix dropPoint
  congr 1
  exact if_congr Subtype.ext_iff rfl rfl

omit [Fintype ι] in
theorem covMatrix_row_kvec (m : GPR ι d) (i : ι) (j : {j : ι // j ≠ i}) :
    covMatrix m i j.1 = kvec (dropPoint m i) (m.X i) j := by
  unfold covMatrix kvec dropPoint
  rw [if_neg (Ne.symm j.2), add_zero]

omit [Fintype ι] in
theorem covMatrix_col_kvec (m : GPR ι d) (i : ι) (j : {j : ι // j ≠ i}) :
    covMatrix m j.1 i = kvec (dropPoint m i) (m.X i) j := by
  unfold covMatrix kvec dropPoint
  rw [if_neg j.2, add_zero]
  exact evaluate_symm _ _ _

theorem loo_core (K : Matrix ι ι ℝ) (i : ι) (hsym : Kᵀ = K)
    (hK : IsUnit K.det)
    (K' : Matrix {j : ι // j ≠ i} {j : ι // j ≠ i} ℝ)
    (hK'entries : ∀ s t, K' s t = K s.1 t.1)
    (hK' : IsUnit K'.det)
    (kv : {j : ι // j ≠ i} → ℝ)
    (hkvrow : ∀ j, K i j.1 = kv j) (hkvcol : ∀ j, K j.1 i = kv j)
    (y : ι → ℝ) :
    y i - (K⁻¹ *ᵥ y) i / (K⁻¹ i i) =
      kv ⬝ᵥ (K'⁻¹ *ᵥ (fun j : {j : ι // j ≠ i} => y j.1)) ∧
    (K⁻¹ i i) * (K i i - kv ⬝ᵥ (K'⁻¹ *ᵥ kv)) = 1 := by
  classical
  have hKe : ∀ a b, K a b = K b a := by
    intro a b
    have h := Matrix.ext_iff.mpr hsym a b
    rw [Matrix.transpose_apply] at h
    exact h.symm
  have hmp : ∀ j : ι, ∑ s, K j s * K⁻¹ s i = if j = i then (1 : ℝ) else 0 := by
    intro j
    have h := Matrix.ext_iff.mpr (Matrix.mul_nonsing_inv K hK) j i
    rw [Matrix.mul_apply] at h
    rw [h, Matrix.one_apply]
  have hred : K' *ᵥ (fun s : {j : ι // j ≠ i} => K⁻¹ s.1 i) =
      (-(K⁻¹ i i)) • kv := by
    funext j
    have hsplit := sum_split_at i (fun s => K j.1 s * K⁻¹ s i)
    have hj0 : ∑ s, K j.1 s * K⁻¹ s i = 0 := by rw [hmp j.1, if_neg j.2]
    calc (K' *ᵥ fun s : {j : ι // j ≠ i} => K⁻¹ s.1 i) j
        = ∑ t : {j : ι // j ≠ i}, K' j t * K⁻¹ t.1 i := by
          simp [Matrix.mulVec, Matrix.dotProduct]
      _ = ∑ t : {j : ι // j ≠ i}, K j.1 t.1 * K⁻¹ t.1 i :=
          Finset.sum_congr rfl fun t _ => by rw [hK'entries]
      _ = (∑ s, K j.1 s * K⁻¹ s i) - K j.1 i * K⁻¹ i i := by
          rw [hsplit]; ring
      _ = 0 - K j.1 i * K⁻¹ i i := by rw [hj0]
      _ = -(K⁻¹ i i) * kv j := by rw [hkvcol j]; ring
      _ = ((-(K⁻¹ i i)) • kv) j := by simp
  have hsolve : (fun s : {j : ι // j ≠ i} => K⁻¹ s.1 i) =
      (-(K⁻¹ i i)) • (K'⁻¹ *ᵥ kv) := by
    have h0 : K'⁻¹ *ᵥ (K' *ᵥ (fun s : {j : ι // j ≠ i} => K⁻¹ s.1 i)) =
        fun s : {j : ι // j ≠ i} => K⁻¹ s.1 i := by
      rw [Matrix.mulVec_mulVec, Matrix.nonsing_inv_mul _ hK', Matrix.one_mulVec]
    rw [← h0, hred, Matrix.mulVec_smul]
  have hav : ∀ j : {j : ι // j ≠ i}, K⁻¹ j.1 i =
      -(K⁻¹ i i) * (K'⁻¹ *ᵥ kv) j := by
    intro j
    have h := congrFun hsolve j
    simpa using h
  have hvar : (K⁻¹ i i) * (K i i - kv ⬝ᵥ (K'⁻¹ *ᵥ kv)) = 1 := by
    have hsplit := sum_split_at i (fun s => K i s * K⁻¹ s i)
    have h1 : ∑ s, K i s * K⁻¹ s i = 1 := by rw [hmp i, if_pos rfl]
    have h3 : ∑ j : {j : ι // j ≠ i}, K i j.1 * K⁻¹ j.1 i =
        -(K⁻¹ i i) * (kv ⬝ᵥ (K'⁻¹ *ᵥ kv)) := by
      have hdot : kv ⬝ᵥ (K'⁻¹ *ᵥ kv) =
          ∑ j : {j : ι // j ≠ i}, kv j * (K'⁻¹ *ᵥ kv) j := rfl
      rw [hdot, Finset.mul_sum]
      refine Finset.sum_congr rfl fun j _ => ?_
      rw [hkvrow j, hav j]
      ring
    rw [h1, h3] at hsplit
    linear_combination -hsplit
  have hai : K⁻¹ i i ≠ 0 := by
    intro h0
    rw [h0, zero_mul] at hvar
    exact zero_ne_one hvar
  refine ⟨?_, hvar⟩
  have hAsym : (K⁻¹)ᵀ = K⁻¹ := by rw [Matrix.transpose_nonsing_inv, hsym]
  have hAs : ∀ s, K⁻¹ i s = K⁻¹ s i := by
    intro s
    have h := Matrix.ext_iff.mpr hAsym s i
    rw [Matrix.transpose_apply] at h
    exact h
  have hmv : (K⁻¹ *ᵥ y) i = ∑ s, K⁻¹ s i * y s := by
    calc (K⁻¹ *ᵥ y) i = ∑ s, K⁻¹ i s * y s := by
          simp [Matrix.mulVec, Matrix.dotProduct]
      _ = ∑ s, K⁻¹ s i * y s :=
          Finset.sum_congr rfl fun s _ => by rw [hAs s]
  have hsplit := sum_split_at i (fun s => K⁻¹ s i * y s)
  have h4 : ∑ j : {j : ι // j ≠ i}, K⁻¹ j.1 i * y j.1 =
      -(K⁻¹ i i) * ((K'⁻¹ *ᵥ kv) ⬝ᵥ (fun j : {j : ι // j ≠ i} => y j.1)) := by
    have hdot : (K'⁻¹ *ᵥ kv) ⬝ᵥ (fun j : {j : ι // j ≠ i} => y j.1) =
        ∑ j : {j : ι // j ≠ i}, (K'⁻¹ *ᵥ kv) j * y j.1 := rfl
    rw [hdot, Finset.mul_sum]
    refine Finset.sum_congr rfl fun j _ => ?_
    rw [hav j]
    ring
  have hK'T : K'ᵀ = K' := by
    refine Matrix.ext fun s t => ?_
    rw [Matrix.transpose_apply, hK'entries, hK'entries]
    exact hKe t.1 s.1
  have hK'sym : (K'⁻¹)ᵀ = K'⁻¹ := by
    rw [Matrix.transpose_nonsing_inv, hK'T]
  have h5 : kv ᵥ* K'⁻¹ = K'⁻¹ *ᵥ kv := by
    conv_lhs => rw [← hK'sym]
    exact Matrix.vecMul_transpose _ _
  have hswap : (K'⁻¹ *ᵥ kv) ⬝ᵥ (fun j : {j : ι // j ≠ i} => y j.1) =
      kv ⬝ᵥ (K'⁻¹ *ᵥ (fun j : {j : ι // j ≠ i} => y j.1)) := by
    rw [Matrix.dotProduct_mulVec, h5]
  rw [hmv, hsplit, h4, hswap]
  have hgen : ∀ c yi R : ℝ, c ≠ 0 → yi - (c * yi + -c * R) / c = R := by
    intro c yi R hc
    rw [show c * yi + -c * R = c * (yi - R) from by ring,
      mul_div_cancel_left₀ _ hc]
    ring
  exact hgen _ _ _ hai

/-- C7 (amended): for every fitted regression model whose full and
reduced covariance matrices are invertible, the closed-form leave-one-out
mean y_i - [K⁻¹y]_i / [K⁻¹]_ii equals the mean obtained by refitting
without point i and predicting at x_i, while the closed-form
leave-one-out variance 1/[K⁻¹]_ii equals the refit (unclamped)
predictive variance PLUS the observation-noise variance, not the refit
predictive variance itself. -/
theorem loo_refit_amended (m : GPR ι d) (i : ι)
    (hK : IsUnit (covMatrix m).det)
    (hK' : IsUnit (covMatrix (dropPoint m i)).det) :
    looMean m i = (predict (dropPoint m i) (m.X i)).1 ∧
    looVariance m i = predictVarRaw (dropPoint m i) (m.X i) + m.noise := by
  have hcore := loo_core (covMatrix m) i (covMatrix_transpose m) hK
    (covMatrix (dropPoint m i)) (fun s t => covMatrix_dropPoint m i s t) hK'
    (kvec (dropPoint m i) (m.X i))
    (fun j => covMatrix_row_kvec m i j) (fun j => covMatrix_col_kvec m i j)
    m.y
  constructor
  · exact hcore.1
  · have h2 := hcore.2
    have hai : (covMatrix m)⁻¹ i i ≠ 0 := by
      intro h0
      rw [h0, zero_mul] at h2
      exact zero_ne_one h2
    have hKii : covMatrix m i i = m.kern.evaluate (m.X i) (m.X i) + m.noise := by
      unfold covMatrix
      rw [if_pos rfl]
    show 1 / ((covMatrix m)⁻¹ i i) =
      predictVarRaw (dropPoint m i) (m.X i) + m.noise
    rw [div_eq_iff hai]
    have hraw : predictVarRaw (dropPoint m i) (m.X i) =
        m.kern.evaluate (m.X i) (m.X i) -
          kvec (dropPoint m i) (m.X i) ⬝ᵥ
            ((covMatrix (dropPoint m i))⁻¹ *ᵥ kvec (dropPoint m i) (m.X i)) := rfl
    rw [hraw]
    rw [hKii] at h2
    linear_combination -h2

theorem covMatrix_mEx : covMatrix mEx = (2 : ℝ) • (1 : Matrix (Fin 1) (Fin 1) ℝ) := by
  ext a b
  fin_cases a
  fin_cases b
  simp [covMatrix, mEx, Kern.evaluate, Matrix.one_apply]
  norm_num

theorem covMatrix_mEx_inv :
    (covMatrix mEx)⁻¹ = (2⁻¹ : ℝ) • (1 : Matrix (Fin 1) (Fin 1) ℝ) := by
  rw [covMatrix_mEx]
  apply Matrix.inv_eq_right_inv
  rw [Matrix.smul_mul, Matrix.one_mul, smul_smul]
  norm_num

theorem looVariance_mEx : looVariance mEx 0 = 2 := by
  unfold looVariance
  rw [covMatrix_mEx_inv]
  simp [Matrix.one_apply]

theorem predict_dropPoint_mEx : (predict (dropPoint mEx 0) (mEx.X 0)).2 = 1 := by
  simp [predict, predictVarRaw, kvec, dropPoint, mEx, Kern.evaluate,
    Matrix.dotProduct]

/-- Counterexample to C7 as stated: for the concrete one-point model the
closed-form leave-one-out variance 1/[K⁻¹]_ii is 2, while refitting
without the point and predicting at it returns variance 1 (the gap is the
noise variance, far beyond numerical tolerance). -/
theorem loo_variance_counterexample :
    looVariance mEx 0 ≠ (predict (dropPoint mEx 0) (mEx.X 0)).2 := by
  rw [looVariance_mEx, predict_dropPoint_mEx]
  norm_num

/-- Witness for the amended C7 at the concrete one-point model. -/
theorem loo_refit_amended_witness :
    looMean mEx 0 = (predict (dropPoint mEx 0) (mEx.X 0)).1 ∧
    looVariance mEx 0 = predictVarRaw (dropPoint mEx 0) (mEx.X 0) + mEx.noise :=
  loo_refit_amended mEx 0
    (by
      rw [covMatrix_mEx]
      rw [show ((2 : ℝ) • (1 : Matrix (Fin 1) (Fin 1) ℝ)).det = 2 from by
        simp [Matrix.det_unique, Matrix.one_apply]]
      exact isUnit_iff_ne_zero.mpr two_ne_zero)
    (by
      rw [Matrix.det_isEmpty]
      exact isUnit_one)

end

end GP
